import Mathlib

/-!
Verification of the product-deduplication engine of `deduplicate_simple.py`.

The engine (lines 19-124 of the source) works on a pandas DataFrame:
  * `get_description` (lines 19-26) extracts a best-effort description,
  * `normalize` (lines 39-42) lower-cases and collapses whitespace,
  * lines 49-50 derive the `desc_prefix` and `dedup_key` columns,
  * `is_empty` (lines 56-70) is the emptiness test used for completeness,
  * `merge_group` (lines 73-102) collapses one group of duplicate records,
  * lines 112-124 group by key, merge each group and drop the derived columns.

The embedding below models
  * Python/pandas cell values by the inductive type `Value` (sequences are
    modelled with scalar elements, which covers every behaviour the engine
    distinguishes: the code only ever inspects emptiness, truthiness and
    string-ness of a value),
  * a DataFrame row by an association list `Record` from column name to value
    (pandas keeps columns in insertion order; setting an existing column
    replaces the value in place, setting a fresh one appends it),
  * the script's fatal failure modes by `Except Err`: a `KeyError`/`TypeError`
    while building `dedup_key` (`page_url` column absent or a non-string cell)
    and the `ValueError` that `bool(value)` raises on a multi-element
    numpy array inside `get_description`.

Python's `str.lower` is modelled on the ASCII range (the only characters the
concrete records in this development use); `str.strip`/`str.split()` are
modelled on the standard whitespace characters.
-/

namespace Dedup

/-! ### Python string primitives -/

/-- The whitespace characters recognised by Python's `str.strip` / `str.split`
(ASCII part). -/
def isPySpace (c : Char) : Bool :=
  c = ' ' || c = '\t' || c = '\n' || c = '\r' || c = '\x0b' || c = '\x0c'

/-- ASCII upper/lower case table used to model Python's `str.lower`. -/
def upperLower : List (Char × Char) :=
  [('A','a'), ('B','b'), ('C','c'), ('D','d'), ('E','e'), ('F','f'), ('G','g'),
   ('H','h'), ('I','i'), ('J','j'), ('K','k'), ('L','l'), ('M','m'), ('N','n'),
   ('O','o'), ('P','p'), ('Q','q'), ('R','r'), ('S','s'), ('T','t'), ('U','u'),
   ('V','v'), ('W','w'), ('X','x'), ('Y','y'), ('Z','z')]

/-- One character of Python's `str.lower` (ASCII). -/
def pyLowerChar (c : Char) : Char :=
  match upperLower.find? (fun p => p.1 = c) with
  | some p => p.2
  | Option.none => c

/-- Trailing-whitespace removal (on the reversed list this is leading
removal). -/
def dropTrail (l : List Char) : List Char :=
  (l.reverse.dropWhile isPySpace).reverse

/-- Python `str.strip` on the character list. -/
def trimChars (l : List Char) : List Char :=
  dropTrail (l.dropWhile isPySpace)

/-- Python `value.strip()`. -/
def pyStrip (s : String) : String := ⟨trimChars s.data⟩

/-- Python `text.lower()` (ASCII). -/
def pyLower (s : String) : String := ⟨s.data.map pyLowerChar⟩

/-- Python `text.split()`: maximal runs of non-whitespace characters.
(Structural formulation: a non-space head either starts a fresh word — when
the tail starts with whitespace or is empty — or extends the first word of
the tail's split.) -/
def splitWs : List Char → List (List Char)
  | [] => []
  | c :: cs =>
    if isPySpace c then splitWs cs
    else
      match cs, splitWs cs with
      | [], _ => [[c]]
      | d :: _, ws =>
        if isPySpace d then [c] :: ws
        else
          match ws with
          | w :: ws' => (c :: w) :: ws'
          | [] => [[c]]

/-- Python `' '.join(words)`. -/
def joinWords : List (List Char) → List Char
  | [] => []
  | [w] => w
  | w :: ws => w ++ ' ' :: joinWords ws

/-- `normalize` (source lines 39-42): on a falsy (empty) string return `""`,
otherwise lower-case, strip, split on whitespace and re-join with single
spaces. -/
def normalize (text : String) : String :=
  if text = "" then ""
  else ⟨joinWords (splitWs (trimChars (text.data.map pyLowerChar)))⟩

/-! ### Values -/

/-- A scalar cell value: `None`, the float `NaN` sentinel, a string, an int or
a bool. -/
inductive Scalar where
  | none
  | nan
  | str (s : String)
  | int (n : Int)
  | bool (b : Bool)
deriving DecidableEq, Repr

/-- A Python/pandas cell value.  Sequences (`list` / `np.ndarray`) are
modelled with scalar elements; the engine never looks deeper than one level. -/
inductive Value where
  | none
  | nan
  | str (s : String)
  | int (n : Int)
  | bool (b : Bool)
  | pylist (elems : List Scalar)
  | ndarray (elems : List Scalar)
deriving DecidableEq, Repr

/-- Elementwise `pd.isna` on a scalar: true exactly for `None` and `NaN`. -/
def scalarIsna : Scalar → Bool
  | .none => true
  | .nan => true
  | _ => false

/-- Python truthiness of a scalar (`bool(x)`). -/
def scalarTruthy : Scalar → Bool
  | .none => false
  | .nan => true
  | .str s => decide (s ≠ "")
  | .int n => decide (n ≠ 0)
  | .bool b => b

/-- Python truthiness `bool(value)`.  A numpy array of size other than one
has no truth value: `bool(arr)` raises `ValueError`, modelled by
`Option.none`.  (A size-one array's truth value is its element's; plain
Python lists are truthy iff non-empty.) -/
def pyTruthy : Value → Option Bool
  | .none => some false
  | .nan => some true
  | .str s => some (decide (s ≠ ""))
  | .int n => some (decide (n ≠ 0))
  | .bool b => some b
  | .pylist l => some (decide (¬ l.isEmpty))
  | .ndarray [x] => some (scalarTruthy x)
  | .ndarray _ => Option.none

/-- The truth value of `pd.isna(value)` as used in the guarded test of
`is_empty` (source lines 65-69): for scalars `pd.isna` returns a bool; for a
sequence it returns an elementwise array, whose `if` either reads the single
element's answer (size one) or raises `ValueError` (any other size, modelled
by `Option.none` and caught by the bare `except`). -/
def pdIsnaTruthy : Value → Option Bool
  | .none => some true
  | .nan => some true
  | .str _ => some false
  | .int _ => some false
  | .bool _ => some false
  | .pylist [x] => some (scalarIsna x)
  | .pylist _ => Option.none
  | .ndarray [x] => some (scalarIsna x)
  | .ndarray _ => Option.none

/-- `is_empty` (source lines 56-70): `None`, whitespace-only strings, empty
lists and empty arrays are empty; then `try: if pd.isna(value): return True`
with a bare `except: pass` (fail open), and finally `return False`. -/
def is_empty (v : Value) : Bool :=
  match v with
  | .none => true
  | .str s => decide (pyStrip s = "")
  | .pylist [] => true
  | .ndarray [] => true
  | v' =>
    match pdIsnaTruthy v' with
    | some b => b
    | Option.none => false

/-! ### Records -/

/-- A DataFrame row: an ordered association list from column name to value. -/
abbrev Record := List (String × Value)

/-- Look a column up in a row (`field in row.index` / `row[field]`). -/
def lookupVal : Record → String → Option Value
  | [], _ => Option.none
  | (k, v) :: rest, c => if k = c then some v else lookupVal rest c

/-- Column lookup defaulting to `None` (the engine only applies it to columns
that exist in the frame). -/
def lookupD (r : Record) (c : String) : Value :=
  (lookupVal r c).getD .none

/-- `field in row.index`. -/
def hasField (r : Record) (c : String) : Bool :=
  (lookupVal r c).isSome

/-- Set a cell: replace in place when the column exists, append otherwise
(pandas column-assignment semantics). -/
def setVal : Record → String → Value → Record
  | [], c, v => [(c, v)]
  | (k, w) :: rest, c, v =>
    if k = c then (c, v) :: rest else (k, w) :: setVal rest c v

/-! ### The Key Deriver -/

/-- The candidate description fields, in the fixed priority order of source
line 21. -/
def candidateFields : List String :=
  ["product_summary", "description", "product_title", "product_name"]

/-- Failure modes of the engine that abort the script. -/
inductive Err where
  /-- `KeyError` / `TypeError` while building `dedup_key` on line 50:
  the `page_url` column is absent or holds a non-string cell. -/
  | missingKey
  /-- `ValueError` from `bool(value)` on a multi-element array in the
  condition of source line 24. -/
  | truthyErr
deriving DecidableEq, Repr

/-- The loop body of `get_description` (source lines 21-26): for each
candidate field present in the row, test `value and isinstance(value, str)
and len(value.strip()) >= 3`; evaluating `value` truthiness may raise. -/
def getDescAux (r : Record) : List String → Except Err String
  | [] => .ok ""
  | f :: rest =>
    if hasField r f then
      match pyTruthy (lookupD r f) with
      | Option.none => .error .truthyErr
      | some b =>
        if b then
          match lookupD r f with
          | .str s =>
            if 3 ≤ (pyStrip s).length then .ok (pyStrip s)
            else getDescAux r rest
          | _ => getDescAux r rest
        else getDescAux r rest
    else getDescAux r rest

/-- `get_description` (source lines 19-26). -/
def get_description (r : Record) : Except Err String :=
  getDescAux r candidateFields

/-- `df['description'].apply(normalize)` applied to one cell; the column
always holds strings by construction. -/
def normalizeCell : Value → Value
  | .str s => .str (normalize s)
  | v => v

/-- `df['normalized_desc'].str[:20].fillna('NO_DESC')` applied to one cell:
the `.str` accessor yields `NaN` on a non-string cell and `fillna` then
substitutes the sentinel; on a string cell it slices the first 20 characters
and `fillna` does nothing. -/
def prefix20 : Value → Value
  | .str s => .str ⟨s.data.take 20⟩
  | _ => .str "NO_DESC"

/-! ### The Group Merger -/

/-- The engine-internal derived columns (source line 78 and the final
`drop` on line 123). -/
def tempCols : List String :=
  ["description", "normalized_desc", "desc_prefix", "dedup_key"]

/-- Completeness score of one row (source lines 83-84): the number of
non-derived columns whose value is non-empty. -/
def countNonEmpty (cols : List String) (r : Record) : Nat :=
  cols.countP (fun c => !(tempCols.contains c) && !(is_empty (lookupD r c)))

/-- One iteration of the base-selection loop of `merge_group` (source lines
82-87): running state is `(position, best position, best count)`, updating
only on a strict improvement. -/
def bestStep (cols : List String) (acc : Nat × Nat × Int) (r : Record) :
    Nat × Nat × Int :=
  if ((countNonEmpty cols r : Int) > acc.2.2) then
    (acc.1 + 1, acc.1, (countNonEmpty cols r : Int))
  else (acc.1 + 1, acc.2.1, acc.2.2)

/-- The base-selection loop of `merge_group` (source lines 79-87), starting
from `best_count = -1`. -/
def bestScan (cols : List String) (g : List Record) : Nat × Nat × Int :=
  g.foldl (bestStep cols) (0, 0, -1)

/-- Position (in group order) of the record chosen as merge base. -/
def bestIdx (cols : List String) (g : List Record) : Nat :=
  (bestScan cols g).2.1

/-- One column of the inner fill loop of `merge_group` (source lines
96-100): skip derived columns; copy the donor's value when the working
copy's value is empty and the donor's is not. -/
def fillStep (r : Record) (acc : Record) (c : String) : Record :=
  if tempCols.contains c then acc
  else if is_empty (lookupD acc c) && !(is_empty (lookupD r c)) then
    setVal acc c (lookupD r c)
  else acc

/-- The inner fill loop of `merge_group` (source lines 96-100), over all
frame columns. -/
def fillFromRecord (cols : List String) (m r : Record) : Record :=
  cols.foldl (fillStep r) m

/-- `merge_group` on a group of size ≥ 2 (source lines 77-102): pick the
base, then fill it from every other record in group order. -/
def mergeCore (cols : List String) (g : List Record) : Record :=
  g.enum.foldl
    (fun acc pr =>
      if pr.1 = bestIdx cols g then acc else fillFromRecord cols acc pr.2)
    (g.getD (bestIdx cols g) [])

/-- `merge_group` (source lines 73-102). -/
def merge_group (cols : List String) (g : List Record) : Record :=
  if g.length = 1 then g.headD [] else mergeCore cols g

/-! ### The pipeline -/

/-- Error-propagating map over the rows: the first raised exception aborts
the script. -/
def mapE (f : Record → Except Err Record) : List Record → Except Err (List Record)
  | [] => .ok []
  | r :: rs =>
    match f r with
    | .error e => .error e
    | .ok r' =>
      match mapE f rs with
      | .error e => .error e
      | .ok rs' => .ok (r' :: rs')

/-- Lines 29-35 for one row: extract the description (from the original
row), then assign the `description` column. -/
def prepDesc (r : Record) : Except Err Record :=
  (get_description r).map (fun d => setVal r "description" (.str d))

/-- Line 45 for one row: `df['normalized_desc'] = df['description'].apply(normalize)`. -/
def prepNorm (r : Record) : Record :=
  setVal r "normalized_desc" (normalizeCell (lookupD r "description"))

/-- Line 49 for one row:
`df['desc_prefix'] = df['normalized_desc'].str[:20].fillna('NO_DESC')`. -/
def prepPref (r : Record) : Record :=
  setVal r "desc_prefix" (prefix20 (lookupD r "normalized_desc"))

/-- Line 50 for one row:
`df['dedup_key'] = df['page_url'] + '|||' + df['desc_prefix']`.
A missing `page_url` column raises `KeyError`; a non-string cell (for
example `NaN`) raises `TypeError` from `float + str`. -/
def prepKeyE (r : Record) : Except Err Record :=
  match lookupVal r "page_url", lookupVal r "desc_prefix" with
  | some (.str us), some (.str ps) =>
    .ok (setVal r "dedup_key" (.str (us ++ "|||" ++ ps)))
  | _, _ => .error .missingKey

/-- Lines 29-35 over the frame. -/
def withDesc (rows : List Record) : Except Err (List Record) :=
  mapE prepDesc rows

/-- Line 45 over the frame. -/
def withNorm (rows : List Record) : List Record :=
  rows.map prepNorm

/-- Line 49 over the frame. -/
def withPref (rows : List Record) : List Record :=
  rows.map prepPref

/-- Line 50 over the frame. -/
def withKey (rows : List Record) : Except Err (List Record) :=
  mapE prepKeyE rows

/-- The `dedup_key` cell of a prepared row, as a string. -/
def keyOf (r : Record) : String :=
  match lookupD r "dedup_key" with
  | .str s => s
  | _ => ""

/-- Lexicographic strict order on character lists (Python string `<`). -/
def listLtChars : List Char → List Char → Bool
  | [], [] => false
  | [], _ :: _ => true
  | _ :: _, [] => false
  | a :: as, b :: bs =>
    if a < b then true else if b < a then false else listLtChars as bs

/-- `a <= b` for grouping keys. -/
def keyLe (a b : String) : Bool := !(listLtChars b.data a.data)

/-- Insert a key into a sorted key list. -/
def insortKey (k : String) : List String → List String
  | [] => [k]
  | x :: xs => if keyLe k x then k :: x :: xs else x :: insortKey k xs

/-- Sort the distinct keys ascending, as pandas `groupby` (with its default
`sort=True`) enumerates groups. -/
def sortKeys (l : List String) : List String := l.foldr insortKey []

/-- `df.groupby('dedup_key')` (line 112): one group per distinct key, keys in
sorted order, rows of a group in original row order. -/
def groupsOf (rows : List Record) : List (List Record) :=
  (sortKeys (rows.map keyOf).dedup).map (fun k => rows.filter (fun r => keyOf r = k))

/-- The column list of the frame after the four derived-column assignments
(assigning an existing column leaves the schema unchanged, a fresh one is
appended). -/
def addCols (cols0 : List String) : List String :=
  tempCols.foldl (fun cs c => if cs.contains c then cs else cs ++ [c]) cols0

/-- Line 123: drop the engine-internal derived columns from a merged row. -/
def dropTemp (r : Record) : Record :=
  r.filter (fun p => !(tempCols.contains p.1))

/-- The whole engine (source lines 19-124): derive the columns, group by
`dedup_key`, merge every group, drop the derived columns.  `cols0` is the
input frame's column list. -/
def runDedup (cols0 : List String) (rows : List Record) : Except Err (List Record) :=
  match withDesc rows with
  | .error e => .error e
  | .ok rows1 =>
    match withKey (withPref (withNorm rows1)) with
    | .error e => .error e
    | .ok rows4 =>
      .ok (((groupsOf rows4).map (merge_group (addCols cols0))).map dropTemp)

/-- Feeding the engine's output back into the engine (the output frame's
columns are the input's minus the derived ones, which the input never
contained in the re-run scenarios considered below). -/
def runTwice (cols0 : List String) (rows : List Record) : Except Err (List Record) :=
  match runDedup cols0 rows with
  | .error e => .error e
  | .ok out => runDedup cols0 out

/-! ### Extractors and derived notions used to state the claims -/

/-- The derived-column preparation of a single row (the composition of the
four column assignments), as a total function; the fallback branches are
unreachable whenever the stated hypotheses of the theorems below hold. -/
def prepF (r : Record) : Record :=
  match get_description r with
  | .error _ => r
  | .ok d =>
    match prepKeyE (prepPref (prepNorm (setVal r "description" (.str d)))) with
    | .ok r' => r'
    | .error _ => prepPref (prepNorm (setVal r "description" (.str d)))

/-- Does this optional cell hold a string? -/
def isStrCell : Option Value → Bool
  | some (.str _) => true
  | _ => false

/-- Did a fallible step succeed? -/
def okBool : Except Err String → Bool
  | .ok _ => true
  | .error _ => false

/-- Did the engine abort? -/
def isErr : Except Err (List Record) → Bool
  | .error _ => true
  | .ok _ => false

/-- The records of a successful run (junk on an aborted run). -/
def okRecords : Except Err (List Record) → List Record
  | .ok l => l
  | .error _ => []

/-- Number of output records of a successful run. -/
def okLength (res : Except Err (List Record)) : Nat :=
  (okRecords res).length

/-- The `page_url` string of a record. -/
def urlStrOf (r : Record) : String :=
  match lookupVal r "page_url" with
  | some (.str u) => u
  | _ => ""

/-- The derived 20-character normalized-description prefix of a record. -/
def prefStrOf (r : Record) : String :=
  match lookupVal (prepF r) "desc_prefix" with
  | some (.str p) => p
  | _ => ""

/-- The grouping key the engine derives for a record. -/
def kOf (r : Record) : Value :=
  lookupD (prepF r) "dedup_key"

/-- The grouping key as a string (used for distinctness hypotheses). -/
def kStrOf (r : Record) : String :=
  match kOf r with
  | .str s => s
  | _ => ""

/-- The records of the group other than the base, in group order
(source lines 93-95: iterate the group, skipping the base row label). -/
def othersOf (g : List Record) (bi : Nat) : List Record :=
  (g.enum.filter (fun pr => decide (pr.1 ≠ bi))).map Prod.snd

/-- Modelled from the spec: the grouping key as the specification words it
("take the first 20 characters of the normalized description; if the
normalized description is empty, substitute the literal sentinel `NO_DESC`;
concatenate `<url_value> + \x22|||\x22 + <prefix_or_sentinel>`"), used to
compare with the key the code computes. -/
def specDedupKey (url nd : String) : String :=
  url ++ "|||" ++ (if nd = "" then "NO_DESC" else ⟨nd.data.take 20⟩)

/-- The emptiness classification exactly as the claim words it: null/NaN,
trimmed-empty string, or zero-element sequence; everything else non-empty. -/
def claimEmpty : Value → Bool
  | .none => true
  | .nan => true
  | .str s => decide (pyStrip s = "")
  | .pylist l => l.isEmpty
  | .ndarray l => l.isEmpty
  | .int _ => false
  | .bool _ => false

/-- The corrected emptiness classification: as the claim, except that a
one-element sequence whose sole element is null/NaN is also classified empty
(pandas' elementwise `isna` read through the truthiness of a one-element
array). -/
def amendedEmpty : Value → Bool
  | .pylist [x] => scalarIsna x
  | .ndarray [x] => scalarIsna x
  | v => claimEmpty v

/-- Description extraction as the claim words it: the first candidate (in
priority order) holding a string of trimmed length at least 3, returned
stripped; the empty string when no candidate qualifies. -/
def claimDescAux (r : Record) : List String → String
  | [] => ""
  | f :: rest =>
    match lookupVal r f with
    | some (.str s) =>
      if 3 ≤ (pyStrip s).length then pyStrip s else claimDescAux r rest
    | _ => claimDescAux r rest

/-- Claim-worded description extraction over the fixed candidate list. -/
def claimDesc (r : Record) : String :=
  claimDescAux r candidateFields

/-- The string held by a cell (junk on non-strings). -/
def strOf : Value → String
  | .str s => s
  | _ => ""

/-- The pure action of the description stage on a row (equal to what
`prepDesc` returns whenever extraction succeeds). -/
def prepDescF (r : Record) : Record :=
  match get_description r with
  | .ok d => setVal r "description" (.str d)
  | .error _ => r

/-- A character list with no leading whitespace. -/
def noLead (l : List Char) : Prop :=
  ∀ c t, l = c :: t → isPySpace c = false

/-- A character list with no trailing whitespace. -/
def noTrail (l : List Char) : Prop :=
  noLead l.reverse

/-- The invariant of the base-selection loop after having processed the
rows `done`: position counter, and (once at least one row was seen) the best
position is in range, achieves the best count, no row beats it, and every
earlier row scored strictly less. -/
def ScanInv (cols : List String) (done : List Record)
    (acc : Nat × Nat × Int) : Prop :=
  acc.1 = done.length ∧
  ((done = [] ∧ acc.2.1 = 0 ∧ acc.2.2 = -1) ∨
    (acc.2.1 < done.length ∧
      (countNonEmpty cols (done.getD acc.2.1 []) : Int) = acc.2.2 ∧
      (∀ j < done.length, (countNonEmpty cols (done.getD j []) : Int) ≤ acc.2.2) ∧
      (∀ j < acc.2.1, (countNonEmpty cols (done.getD j []) : Int) < acc.2.2)))

/-- Concrete four-record input refuting idempotence: the first three records
share the key `"u|||qqqq"`; merging fills the base's empty `product_summary`
with `"ab"` (non-empty but too short to qualify as a description) and its
empty `product_title` with `"zzzz"`, so the merged record re-derives the
description `"zzzz"` and collides with the fourth record's key `"u|||zzzz"`
on a second run. -/
def exIdemCols : List String :=
  ["page_url", "product_summary", "product_title", "product_name", "colA", "colB"]

/-- Group-1 base: most complete record, description from `product_name`. -/
def exG1Base : Record :=
  [("page_url", Value.str "u"), ("product_summary", Value.str ""),
   ("product_title", Value.str ""), ("product_name", Value.str "qqqq"),
   ("colA", Value.str "1"), ("colB", Value.str "2")]

/-- Group-1 donor with a short (non-qualifying, non-empty) summary. -/
def exG1Fill1 : Record :=
  [("page_url", Value.str "u"), ("product_summary", Value.str "ab"),
   ("product_title", Value.str ""), ("product_name", Value.str "qqqq"),
   ("colA", Value.str ""), ("colB", Value.str "")]

/-- Group-1 donor whose title `"zzzz"` gets copied into the merged record. -/
def exG1Fill2 : Record :=
  [("page_url", Value.str "u"), ("product_summary", Value.str "qqqq"),
   ("product_title", Value.str "zzzz"), ("product_name", Value.str ""),
   ("colA", Value.str ""), ("colB", Value.str "")]

/-- The singleton group with key `"u|||zzzz"`. -/
def exSingle : Record :=
  [("page_url", Value.str "u"), ("product_summary", Value.str "zzzz"),
   ("product_title", Value.str ""), ("product_name", Value.str ""),
   ("colA", Value.str ""), ("colB", Value.str "")]

/-- The four-record idempotence counterexample input. -/
def exIdemRows : List Record := [exG1Base, exG1Fill1, exG1Fill2, exSingle]

/-- A successful run whose output is a permutation (hence the same set) of
the input records. -/
def permOk (rows : List Record) (res : Except Err (List Record)) : Prop :=
  match res with
  | .ok out => out.Perm rows
  | .error _ => False

/-- A successful run in which every output record carries exactly the input
column schema and every output cell is some input record's cell. -/
def schemaProvOk (cols0 : List String) (rows : List Record)
    (res : Except Err (List Record)) : Prop :=
  match res with
  | .ok out =>
    (∀ m ∈ out, m.map Prod.fst = cols0) ∧
      (∀ m ∈ out, ∀ c ∈ cols0, ∃ r ∈ rows, lookupD m c = lookupD r c)
  | .error _ => False

/-! ### Association-list lemmas -/

theorem lookupVal_setVal_self (r : Record) (c : String) (v : Value) :
    lookupVal (setVal r c v) c = some v := by
  induction r with
  | nil => simp [setVal, lookupVal]
  | cons p rest ih =>
    by_cases h : p.1 = c
    · simp [setVal, lookupVal, h]
    · simp [setVal, lookupVal, h, ih]

theorem lookupVal_setVal_ne (r : Record) {c c' : String} (v : Value)
    (h : c' ≠ c) : lookupVal (setVal r c v) c' = lookupVal r c' := by
  induction r with
  | nil => simp [setVal, lookupVal, Ne.symm h]
  | cons p rest ih =>
    by_cases hp : p.1 = c
    · simp [setVal, lookupVal, hp, Ne.symm h]
    · by_cases hp' : p.1 = c'
      · simp [setVal, lookupVal, hp, hp', h]
      · simp [setVal, lookupVal, hp, hp', ih]

theorem lookupVal_eq_none_iff (r : Record) (c : String) :
    lookupVal r c = Option.none ↔ c ∉ r.map Prod.fst := by
  induction r with
  | nil => simp [lookupVal]
  | cons p rest ih =>
    by_cases h : p.1 = c
    · simp [lookupVal, h]
    · simp [lookupVal, h, ih, Ne.symm h]

theorem setVal_eq_append (r : Record) (c : String) (v : Value)
    (h : lookupVal r c = Option.none) : setVal r c v = r ++ [(c, v)] := by
  induction r with
  | nil => simp [setVal]
  | cons p rest ih =>
    by_cases hp : p.1 = c
    · simp [lookupVal, hp] at h
    · simp [lookupVal, hp] at h
      simp [setVal, hp, ih h]

theorem keys_setVal_of_mem (r : Record) (c : String) (v : Value)
    (h : c ∈ r.map Prod.fst) :
    (setVal r c v).map Prod.fst = r.map Prod.fst := by
  induction r with
  | nil => simp at h
  | cons p rest ih =>
    by_cases hp : p.1 = c
    · simp [setVal, hp]
    · rw [List.map_cons] at h
      rcases List.mem_cons.mp h with h1 | h1
      · exact absurd h1.symm hp
      · simp [setVal, hp, ih h1]

theorem lookupVal_append (a b : Record) (c : String) :
    lookupVal (a ++ b) c =
      match lookupVal a c with
      | some v => some v
      | Option.none => lookupVal b c := by
  induction a with
  | nil => simp [lookupVal]
  | cons p rest ih =>
    by_cases hp : p.1 = c
    · simp [lookupVal, hp]
    · simp [lookupVal, hp, ih]

/-! ### `mapE` lemmas -/

theorem mapE_eq_ok_of_all (f : Record → Except Err Record)
    (g : Record → Record) (l : List Record)
    (h : ∀ r ∈ l, f r = .ok (g r)) : mapE f l = .ok (l.map g) := by
  induction l with
  | nil => rfl
  | cons r rs ih =>
    have hr := h r (by simp)
    have hrs := ih (fun x hx => h x (by simp [hx]))
    simp [mapE, hr, hrs]

theorem mapE_error_of_mem (f : Record → Except Err Record)
    {l : List Record} {r : Record} {e : Err}
    (hm : r ∈ l) (hf : f r = .error e) : ∃ e', mapE f l = .error e' := by
  induction l with
  | nil => simp at hm
  | cons x xs ih =>
    rcases List.mem_cons.mp hm with h | h
    · subst h
      exact ⟨e, by simp [mapE, hf]⟩
    · match hx : f x with
      | .error e' => exact ⟨e', by simp [mapE, hx]⟩
      | .ok x' =>
        rcases ih h with ⟨e', he'⟩
        exact ⟨e', by simp [mapE, hx, he']⟩

theorem mapE_ok_mem (f : Record → Except Err Record)
    {l l' : List Record} {r : Record}
    (hok : mapE f l = .ok l') (hm : r ∈ l) : ∃ r' ∈ l', f r = .ok r' := by
  induction l generalizing l' with
  | nil => simp at hm
  | cons x xs ih =>
    match hx : f x, hxs : mapE f xs with
    | .error e, _ => simp [mapE, hx] at hok
    | .ok x', .error e => simp [mapE, hx, hxs] at hok
    | .ok x', .ok xs' =>
      simp [mapE, hx, hxs] at hok
      subst hok
      rcases List.mem_cons.mp hm with h | h
      · exact ⟨x', by simp, h ▸ hx⟩
      · rcases ih hxs h with ⟨r', hr', hfr⟩
        exact ⟨r', by simp [hr'], hfr⟩

/-! ### Fill-loop lemmas -/

theorem lookupD_setVal_self (r : Record) (c : String) (v : Value) :
    lookupD (setVal r c v) c = v := by
  simp [lookupD, lookupVal_setVal_self]

theorem lookupD_setVal_ne (r : Record) {c c' : String} (v : Value)
    (h : c' ≠ c) : lookupD (setVal r c v) c' = lookupD r c' := by
  simp [lookupD, lookupVal_setVal_ne r v h]

theorem lookupD_fillStep_ne (r m : Record) {c d : String} (h : c ≠ d) :
    lookupD (fillStep r m d) c = lookupD m c := by
  unfold fillStep
  by_cases h1 : d ∈ tempCols
  · simp [h1]
  · by_cases h2 : is_empty (lookupD m d)
    · by_cases h3 : is_empty (lookupD r d)
      · simp [h1, h2, h3]
      · simp [h1, h2, h3, lookupD_setVal_ne m _ h]
    · simp [h1, h2]

theorem fillFold_lookup (r : Record) (c : String) :
    ∀ (cs : List String) (m : Record),
    lookupD (cs.foldl (fillStep r) m) c =
      if c ∈ cs ∧ c ∉ tempCols ∧ is_empty (lookupD m c) = true
          ∧ is_empty (lookupD r c) = false
      then lookupD r c else lookupD m c := by
  intro cs
  induction cs with
  | nil => intro m; simp
  | cons d cs ih =>
    intro m
    rw [List.foldl_cons, ih (fillStep r m d)]
    by_cases hcd : c = d
    · subst hcd
      by_cases ht : c ∈ tempCols
      · have hm' : fillStep r m c = m := by simp [fillStep, ht]
        rw [hm']
        have hneg : ∀ (X : List String), ¬ (c ∈ X ∧ c ∉ tempCols ∧
            is_empty (lookupD m c) = true ∧ is_empty (lookupD r c) = false) :=
          fun X hc => hc.2.1 ht
        rw [if_neg (hneg cs), if_neg (hneg (c :: cs))]
      · by_cases hme : is_empty (lookupD m c)
        · by_cases hre : is_empty (lookupD r c)
          · have hm' : fillStep r m c = m := by simp [fillStep, ht, hme, hre]
            rw [hm']
            have hneg : ∀ (X : List String), ¬ (c ∈ X ∧ c ∉ tempCols ∧
                is_empty (lookupD m c) = true ∧ is_empty (lookupD r c) = false) := by
              intro X hc
              rw [hre] at hc
              exact absurd hc.2.2.2 (by simp)
            rw [if_neg (hneg cs), if_neg (hneg (c :: cs))]
          · have hre' : is_empty (lookupD r c) = false := by
              revert hre
              cases is_empty (lookupD r c) <;> simp
            have hm' : lookupD (fillStep r m c) c = lookupD r c := by
              simp [fillStep, ht, hme, hre', lookupD_setVal_self]
            rw [hm']
            have hleft : ¬ (c ∈ cs ∧ c ∉ tempCols ∧
                is_empty (lookupD r c) = true ∧ is_empty (lookupD r c) = false) := by
              intro hc
              rw [hc.2.2.1] at hre'
              exact absurd hre' (by simp)
            rw [if_neg hleft,
              if_pos ⟨List.mem_cons_self c cs, ht, hme, hre'⟩]
        · have hme' : is_empty (lookupD m c) = false := by
            revert hme
            cases is_empty (lookupD m c) <;> simp
          have hm' : fillStep r m c = m := by simp [fillStep, ht, hme']
          rw [hm']
          have hneg : ∀ (X : List String), ¬ (c ∈ X ∧ c ∉ tempCols ∧
              is_empty (lookupD m c) = true ∧ is_empty (lookupD r c) = false) := by
            intro X hc
            rw [hme'] at hc
            exact absurd hc.2.2.1 (by simp)
          rw [if_neg (hneg cs), if_neg (hneg (c :: cs))]
    · have hm' : lookupD (fillStep r m d) c = lookupD m c :=
        lookupD_fillStep_ne r m hcd
      rw [hm']
      simp only [List.mem_cons, hcd, false_or]

/-- The working copy after filling from a list of donors, at a real column:
the first donor with a non-empty value wins, and a non-empty value is never
overwritten. -/
theorem fillList_lookup (cols : List String) {c : String}
    (hmem : c ∈ cols) (ht : c ∉ tempCols) :
    ∀ (rs : List Record) (m : Record),
    lookupD (rs.foldl (fillFromRecord cols) m) c =
      if is_empty (lookupD m c) = true then
        (match rs.find? (fun r => !(is_empty (lookupD r c))) with
         | some r => lookupD r c
         | Option.none => lookupD m c)
      else lookupD m c := by
  intro rs
  induction rs with
  | nil =>
    intro m
    by_cases he : is_empty (lookupD m c) = true <;> simp [he]
  | cons r rs ih =>
    intro m
    rw [List.foldl_cons, ih (fillFromRecord cols m r)]
    have hfill : lookupD (fillFromRecord cols m r) c =
        if c ∈ cols ∧ c ∉ tempCols ∧ is_empty (lookupD m c) = true
            ∧ is_empty (lookupD r c) = false
        then lookupD r c else lookupD m c := fillFold_lookup r c cols m
    by_cases hme : is_empty (lookupD m c)
    · by_cases hre : is_empty (lookupD r c)
      · have h1 : lookupD (fillFromRecord cols m r) c = lookupD m c := by
          rw [hfill, if_neg ?_]
          intro hc
          rw [hre] at hc
          exact absurd hc.2.2.2 (by simp)
        rw [h1]
        rw [List.find?_cons_of_neg _ (by simp [hre])]
      · have hre' : is_empty (lookupD r c) = false := by
          revert hre
          cases is_empty (lookupD r c) <;> simp
        have h1 : lookupD (fillFromRecord cols m r) c = lookupD r c := by
          rw [hfill, if_pos ⟨hmem, ht, hme, hre'⟩]
        rw [h1]
        rw [List.find?_cons_of_pos _ (by simp [hre'])]
        simp [hme, hre']
    · have hme' : is_empty (lookupD m c) = false := by
        revert hme
        cases is_empty (lookupD m c) <;> simp
      have h1 : lookupD (fillFromRecord cols m r) c = lookupD m c := by
        rw [hfill, if_neg (by intro hc; exact hme hc.2.2.1)]
      rw [h1]
      simp [hme']

/-! ### Base-selection lemmas -/

theorem getD_append_length {α : Type} (l : List α) (x : α) (d : α) :
    (l ++ [x]).getD l.length d = x := by
  induction l with
  | nil => rfl
  | cons y ys ih => simp [ih]

theorem scanInv_step (cols : List String) (done : List Record)
    (acc : Nat × Nat × Int) (r : Record) (h : ScanInv cols done acc) :
    ScanInv cols (done ++ [r]) (bestStep cols acc r) := by
  obtain ⟨hlen, hrest⟩ := h
  by_cases himp : ((countNonEmpty cols r : Int) > acc.2.2)
  · refine ⟨by simp [bestStep, himp, hlen], Or.inr ?_⟩
    simp only [bestStep, if_pos himp]
    refine ⟨by simp [hlen], ?_, ?_, ?_⟩
    · rw [hlen, getD_append_length]
    · intro j hj
      rw [List.length_append, List.length_singleton] at hj
      by_cases hj' : j < done.length
      · rw [List.getD_append _ _ _ _ hj']
        rcases hrest with ⟨hd, _, hbc⟩ | ⟨_, _, hall, _⟩
        · subst hd; simp at hj'
        · exact le_of_lt (lt_of_le_of_lt (hall j hj') himp)
      · have : j = done.length := by omega
        subst this
        rw [getD_append_length]
    · intro j hj
      rw [hlen] at hj
      rw [List.getD_append _ _ _ _ hj]
      rcases hrest with ⟨hd, _, hbc⟩ | ⟨_, _, hall, _⟩
      · subst hd; simp at hj
      · exact lt_of_le_of_lt (hall j hj) himp
  · have hcnt : (countNonEmpty cols r : Int) ≤ acc.2.2 := not_lt.mp himp
    have hpos : (0 : Int) ≤ (countNonEmpty cols r : Int) := Int.ofNat_nonneg _
    rcases hrest with ⟨hd, _, hbc⟩ | ⟨hbi, hbest, hall, hstrict⟩
    · rw [hbc] at hcnt
      omega
    · refine ⟨by simp [bestStep, himp, hlen], Or.inr ?_⟩
      simp only [bestStep, if_neg himp]
      refine ⟨by simp; omega, ?_, ?_, ?_⟩
      · rw [List.getD_append _ _ _ _ hbi]
        exact hbest
      · intro j hj
        rw [List.length_append, List.length_singleton] at hj
        by_cases hj' : j < done.length
        · rw [List.getD_append _ _ _ _ hj']
          exact hall j hj'
        · have : j = done.length := by omega
          subst this
          rw [getD_append_length]
          exact hcnt
      · intro j hj
        rw [List.getD_append _ _ _ _ (lt_trans hj hbi)]
        exact hstrict j hj

theorem scanInv_foldl (cols : List String) :
    ∀ (l done : List Record) (acc : Nat × Nat × Int),
    ScanInv cols done acc →
    ScanInv cols (done ++ l) (l.foldl (bestStep cols) acc) := by
  intro l
  induction l with
  | nil => intro done acc h; simpa using h
  | cons r rs ih =>
    intro done acc h
    have h1 := scanInv_step cols done acc r h
    have h2 := ih (done ++ [r]) (bestStep cols acc r) h1
    simpa using h2

/-- The base chosen by `merge_group` is the first row of the group to attain
the maximal completeness count. -/
theorem bestIdx_spec (cols : List String) (g : List Record) (hne : g ≠ []) :
    bestIdx cols g < g.length ∧
    (∀ j < g.length, countNonEmpty cols (g.getD j []) ≤
      countNonEmpty cols (g.getD (bestIdx cols g) [])) ∧
    (∀ j < bestIdx cols g, countNonEmpty cols (g.getD j []) <
      countNonEmpty cols (g.getD (bestIdx cols g) [])) := by
  have h0 : ScanInv cols [] (0, 0, -1) := ⟨rfl, Or.inl ⟨rfl, rfl, rfl⟩⟩
  have h := scanInv_foldl cols g [] (0, 0, -1) h0
  rw [List.nil_append] at h
  obtain ⟨hlen, hrest⟩ := h
  rcases hrest with ⟨hd, _, _⟩ | ⟨hbi, hbest, hall, hstrict⟩
  · exact absurd hd hne
  · refine ⟨hbi, ?_, ?_⟩
    · intro j hj
      have := hall j hj
      rw [← hbest] at this
      exact_mod_cast this
    · intro j hj
      have := hstrict j hj
      rw [← hbest] at this
      exact_mod_cast this

/-- The conditional skip of the fill loop (`if idx == best_idx: continue`)
is a fold over the non-base rows. -/
theorem mergeCore_eq_fillList (cols : List String) (g : List Record) :
    mergeCore cols g =
      (othersOf g (bestIdx cols g)).foldl (fillFromRecord cols)
        (g.getD (bestIdx cols g) []) := by
  unfold mergeCore othersOf
  generalize bestIdx cols g = bi
  generalize g.getD bi [] = base
  generalize g.enum = l
  induction l generalizing base with
  | nil => rfl
  | cons x xs ih =>
    by_cases hx : x.1 = bi
    · simp [hx, ih]
    · simp [hx, ih]

/-! ## C2 — base selection and first-wins fill -/

/-- C2: for a group of size > 1, the merged record is obtained by (a)
selecting as base the first record of the group to attain the strictly
maximal completeness count — every record scores at most the base's count
and every record before the base scores strictly less, so an equal count
never replaces the current best — and (b) for every original (non-derived)
column, keeping the base's value when it is non-empty and otherwise taking
the value of the first other record (in group order) whose value is
non-empty, never overwriting a field once filled. -/
theorem c2_merge_group_spec (cols : List String) (g : List Record)
    (h : 1 < g.length) :
    bestIdx cols g < g.length ∧
    (∀ j < g.length, countNonEmpty cols (g.getD j []) ≤
      countNonEmpty cols (g.getD (bestIdx cols g) [])) ∧
    (∀ j < bestIdx cols g, countNonEmpty cols (g.getD j []) <
      countNonEmpty cols (g.getD (bestIdx cols g) [])) ∧
    (∀ c ∈ cols, c ∉ tempCols →
      lookupD (merge_group cols g) c =
        if is_empty (lookupD (g.getD (bestIdx cols g) []) c) = true then
          (match (othersOf g (bestIdx cols g)).find?
              (fun r => !(is_empty (lookupD r c))) with
           | some r => lookupD r c
           | Option.none => lookupD (g.getD (bestIdx cols g) []) c)
        else lookupD (g.getD (bestIdx cols g) []) c) := by
  have hne : g ≠ [] := by
    intro h0
    rw [h0] at h
    simp at h
  obtain ⟨h1, h2, h3⟩ := bestIdx_spec cols g hne
  refine ⟨h1, h2, h3, ?_⟩
  intro c hc hct
  have hmg : merge_group cols g = mergeCore cols g := by
    unfold merge_group
    rw [if_neg (by omega)]
  rw [hmg, mergeCore_eq_fillList]
  exact fillList_lookup cols hc hct (othersOf g (bestIdx cols g)) _

/-- C2 witness: a concrete two-record group, instantiating the theorem. -/
theorem c2_merge_group_spec_witness :
    (1 < ([[("a", Value.str "")], [("a", Value.str "x")]] : List Record).length) ∧
    (bestIdx ["a"] [[("a", Value.str "")], [("a", Value.str "x")]] <
      ([[("a", Value.str "")], [("a", Value.str "x")]] : List Record).length ∧
    (∀ j < ([[("a", Value.str "")], [("a", Value.str "x")]] : List Record).length,
      countNonEmpty ["a"]
        (([[("a", Value.str "")], [("a", Value.str "x")]] : List Record).getD j []) ≤
      countNonEmpty ["a"]
        (([[("a", Value.str "")], [("a", Value.str "x")]] : List Record).getD
          (bestIdx ["a"] [[("a", Value.str "")], [("a", Value.str "x")]]) [])) ∧
    (∀ j < bestIdx ["a"] [[("a", Value.str "")], [("a", Value.str "x")]],
      countNonEmpty ["a"]
        (([[("a", Value.str "")], [("a", Value.str "x")]] : List Record).getD j []) <
      countNonEmpty ["a"]
        (([[("a", Value.str "")], [("a", Value.str "x")]] : List Record).getD
          (bestIdx ["a"] [[("a", Value.str "")], [("a", Value.str "x")]]) [])) ∧
    (∀ c ∈ ["a"], c ∉ tempCols →
      lookupD (merge_group ["a"] [[("a", Value.str "")], [("a", Value.str "x")]]) c =
        if is_empty (lookupD
            (([[("a", Value.str "")], [("a", Value.str "x")]] : List Record).getD
              (bestIdx ["a"] [[("a", Value.str "")], [("a", Value.str "x")]]) []) c) = true
        then
          (match (othersOf [[("a", Value.str "")], [("a", Value.str "x")]]
              (bestIdx ["a"] [[("a", Value.str "")], [("a", Value.str "x")]])).find?
              (fun r => !(is_empty (lookupD r c))) with
           | some r => lookupD r c
           | Option.none =>
             lookupD (([[("a", Value.str "")], [("a", Value.str "x")]] : List Record).getD
               (bestIdx ["a"] [[("a", Value.str "")], [("a", Value.str "x")]]) []) c)
        else lookupD (([[("a", Value.str "")], [("a", Value.str "x")]] : List Record).getD
          (bestIdx ["a"] [[("a", Value.str "")], [("a", Value.str "x")]]) []) c)) :=
  ⟨by decide, c2_merge_group_spec ["a"] [[("a", Value.str "")], [("a", Value.str "x")]]
    (by decide)⟩

/-! ## C5 — completeness monotonicity -/

/-- C5: for a group of size > 1, the merged record's non-empty field count
is at least the non-empty field count of every record in the group (hence at
least the maximum). -/
theorem c5_completeness_monotone (cols : List String) (g : List Record)
    (h : 1 < g.length) :
    ∀ r ∈ g, countNonEmpty cols r ≤ countNonEmpty cols (merge_group cols g) := by
  intro r hr
  have hne : g ≠ [] := by
    intro h0
    rw [h0] at h
    simp at h
  obtain ⟨h1, h2, _⟩ := bestIdx_spec cols g hne
  have hmg : merge_group cols g = mergeCore cols g := by
    unfold merge_group
    rw [if_neg (by omega)]
  rcases List.mem_iff_get.mp hr with ⟨n, hget⟩
  have hle1 : countNonEmpty cols r ≤
      countNonEmpty cols (g.getD (bestIdx cols g) []) := by
    have hthis := h2 n.1 n.2
    rw [List.getD_eq_getElem _ _ n.2] at hthis
    rw [List.get_eq_getElem] at hget
    rw [hget] at hthis
    exact hthis
  have hle2 : countNonEmpty cols (g.getD (bestIdx cols g) []) ≤
      countNonEmpty cols (merge_group cols g) := by
    unfold countNonEmpty
    apply List.countP_mono_left
    intro c hc hp
    simp only [Bool.and_eq_true, Bool.not_eq_true'] at hp
    obtain ⟨hct, hce⟩ := hp
    have hctm : c ∉ tempCols := by
      intro hmem
      have htrue : tempCols.contains c = true := List.elem_eq_true_of_mem hmem
      rw [hct] at htrue
      exact absurd htrue (by simp)
    have hlook : lookupD (merge_group cols g) c =
        lookupD (g.getD (bestIdx cols g) []) c := by
      rw [hmg, mergeCore_eq_fillList]
      rw [fillList_lookup cols hc hctm (othersOf g (bestIdx cols g)) _]
      rw [if_neg (by rw [hce]; simp)]
    simp only [Bool.and_eq_true, Bool.not_eq_true']
    exact ⟨hct, by rw [hlook]; exact hce⟩
  exact le_trans hle1 hle2

/-- C5 witness: instantiation at a concrete two-record group. -/
theorem c5_completeness_monotone_witness :
    (1 < ([[("a", Value.str "")], [("a", Value.str "x")]] : List Record).length) ∧
    (∀ r ∈ ([[("a", Value.str "")], [("a", Value.str "x")]] : List Record),
      countNonEmpty ["a"] r ≤
        countNonEmpty ["a"]
          (merge_group ["a"] [[("a", Value.str "")], [("a", Value.str "x")]])) :=
  ⟨by decide, c5_completeness_monotone ["a"]
    [[("a", Value.str "")], [("a", Value.str "x")]] (by decide)⟩

/-! ## C1 — the `NO_DESC` sentinel is never substituted

The claim (and the spec) say: whenever the normalized description is empty,
the literal sentinel `NO_DESC` replaces the 20-character description slice in
the key.  The code's `fillna('NO_DESC')` on line 49 is the author's attempt
at exactly this, but it is dead: `normalize` always returns a string (the
empty string for a missing description), never `NaN`, and `.str[:20]` maps
`""` to `""`, so `fillna` never fires.  A record with no description fields
therefore gets the key `<url>+"|||"` instead of `<url>+"|||NO_DESC"`. -/

/-- C1: at a record with URL `http://a.com/p1` and no description fields, the
code derives the key `"http://a.com/p1|||"`, while the claimed key (with the
`NO_DESC` sentinel substituted for the empty normalized description) is
`"http://a.com/p1|||NO_DESC"` — the two differ, so the sentinel clause of the
claim is false of the code. -/
theorem c1_sentinel_never_substituted :
    kOf [("page_url", Value.str "http://a.com/p1")] =
      Value.str "http://a.com/p1|||" ∧
    specDedupKey "http://a.com/p1" "" = "http://a.com/p1|||NO_DESC" ∧
    Value.str "http://a.com/p1|||" ≠
      Value.str (specDedupKey "http://a.com/p1" "") := by
  decide

/-! ## C6 — the emptiness predicate -/

/-- C6 counterexample: a one-element list containing `NaN` is a non-empty
sequence, which the claim classifies non-empty, yet `is_empty` classifies it
empty (`pd.isna([nan])` is a one-element array whose truth value is `True`). -/
theorem c6_one_element_nan_list :
    is_empty (Value.pylist [Scalar.nan]) = true ∧
    claimEmpty (Value.pylist [Scalar.nan]) = false := by
  decide

/-- C6 (amended): `is_empty` classifies a value empty exactly when it is
null/NaN, a string empty after trimming, a zero-element sequence, or a
one-element sequence whose sole element is null/NaN; every other value —
including `0`, `false`, other non-empty strings or sequences, and values
whose emptiness test raises (multi-element arrays, fail-open) — is classified
non-empty. -/
theorem c6_is_empty_characterisation :
    ∀ v, is_empty v = amendedEmpty v := by
  intro v
  cases v with
  | none => rfl
  | nan => rfl
  | str s => rfl
  | int n => rfl
  | bool b => rfl
  | pylist l =>
    match l with
    | [] => rfl
    | [x] => rfl
    | _ :: _ :: _ => rfl
  | ndarray l =>
    match l with
    | [] => rfl
    | [x] => rfl
    | _ :: _ :: _ => rfl

/-! ## C3 — a record without the URL field aborts the run -/

/-- C3: if any input record lacks the `page_url` field, the engine raises
(the `dedup_key` construction on line 50 cannot be formed) and the run
produces no output records. -/
theorem c3_missing_url_aborts (cols0 : List String) (rows : List Record)
    (h : ∃ r ∈ rows, lookupVal r "page_url" = Option.none) :
    isErr (runDedup cols0 rows) = true := by
  rcases h with ⟨r, hr, hnone⟩
  match hdesc : withDesc rows with
  | .error e => simp [runDedup, hdesc, isErr]
  | .ok rows1 =>
    rcases mapE_ok_mem _ hdesc hr with ⟨r', hr', hfr⟩
    match hgd : get_description r with
    | .error e => simp [prepDesc, hgd, Except.map] at hfr
    | .ok d =>
      simp [prepDesc, hgd, Except.map] at hfr
      have hurl1 : lookupVal r' "page_url" = Option.none := by
        rw [← hfr, lookupVal_setVal_ne r (v := Value.str d) (by decide), hnone]
      have hr2 : prepNorm r' ∈ withNorm rows1 := List.mem_map_of_mem _ hr'
      have hurl2 : lookupVal (prepNorm r') "page_url" = Option.none := by
        unfold prepNorm
        rw [lookupVal_setVal_ne _ _ (by decide), hurl1]
      have hr3 : prepPref (prepNorm r') ∈ withPref (withNorm rows1) :=
        List.mem_map_of_mem _ hr2
      have hurl3 : lookupVal (prepPref (prepNorm r')) "page_url" = Option.none := by
        unfold prepPref
        rw [lookupVal_setVal_ne _ _ (by decide), hurl2]
      have hkey : prepKeyE (prepPref (prepNorm r')) = Except.error Err.missingKey := by
        unfold prepKeyE
        rw [hurl3]
      rcases mapE_error_of_mem prepKeyE hr3 hkey with ⟨e', he'⟩
      have hWK : withKey (withPref (withNorm rows1)) = Except.error e' := he'
      simp [runDedup, hdesc, hWK, isErr]

/-- C3 witness: a concrete record without `page_url` makes the engine abort. -/
theorem c3_missing_url_aborts_witness :
    isErr (runDedup ["brand"] [[("brand", Value.str "Acme")]]) = true :=
  c3_missing_url_aborts ["brand"] [[("brand", Value.str "Acme")]] (by decide)

/-! ### Whitespace and lower-casing lemmas -/

theorem dropWhile_head_false (p : Char → Bool) :
    ∀ (l : List Char) (c : Char) (t : List Char),
    l.dropWhile p = c :: t → p c = false := by
  intro l
  induction l with
  | nil => intro c t h; simp [List.dropWhile] at h
  | cons x xs ih =>
    intro c t h
    by_cases hx : p x
    · rw [List.dropWhile_cons_of_pos hx] at h
      exact ih c t h
    · rw [List.dropWhile_cons_of_neg hx] at h
      cases h
      revert hx
      cases p x <;> simp

theorem noLead_dropWhile (l : List Char) : noLead (l.dropWhile isPySpace) :=
  fun c t h => dropWhile_head_false isPySpace l c t h

theorem dropWhile_of_noLead {l : List Char} (h : noLead l) :
    l.dropWhile isPySpace = l := by
  cases l with
  | nil => rfl
  | cons c t => exact List.dropWhile_cons_of_neg (by rw [h c t rfl]; simp)

theorem noTrail_dropTrail (l : List Char) : noTrail (dropTrail l) := by
  unfold noTrail dropTrail
  rw [List.reverse_reverse]
  exact noLead_dropWhile _

theorem dropTrail_of_noTrail {l : List Char} (h : noTrail l) :
    dropTrail l = l := by
  unfold dropTrail
  rw [dropWhile_of_noLead h, List.reverse_reverse]

theorem noLead_dropTrail {l : List Char} (h : noLead l) :
    noLead (dropTrail l) := by
  cases l with
  | nil =>
    intro c t hc
    simp [dropTrail] at hc
  | cons x xs =>
    have hx : isPySpace x = false := h x xs rfl
    intro c t hc
    unfold dropTrail at hc
    rw [List.reverse_cons, List.dropWhile_append] at hc
    by_cases hemp : (xs.reverse.dropWhile isPySpace).isEmpty
    · rw [if_pos hemp] at hc
      rw [List.dropWhile_cons_of_neg (by rw [hx]; simp)] at hc
      simp [List.dropWhile] at hc
      rw [← hc.1]
      exact hx
    · rw [if_neg hemp] at hc
      rw [List.reverse_append] at hc
      simp only [List.reverse_cons, List.reverse_nil, List.nil_append,
        List.cons_append] at hc
      cases hc
      exact hx

theorem noLead_trimChars (l : List Char) : noLead (trimChars l) :=
  noLead_dropTrail (noLead_dropWhile l)

theorem noTrail_trimChars (l : List Char) : noTrail (trimChars l) :=
  noTrail_dropTrail _

theorem trimChars_idem (l : List Char) : trimChars (trimChars l) = trimChars l := by
  show dropTrail ((trimChars l).dropWhile isPySpace) = trimChars l
  rw [dropWhile_of_noLead (noLead_trimChars l), dropTrail_of_noTrail (noTrail_trimChars l)]

theorem pyStrip_idem (s : String) : pyStrip (pyStrip s) = pyStrip s := by
  unfold pyStrip
  rw [trimChars_idem]

theorem mem_trimChars {c : Char} {l : List Char} (h : c ∈ trimChars l) : c ∈ l := by
  unfold trimChars dropTrail at h
  rw [List.mem_reverse] at h
  have h1 := (List.dropWhile_sublist isPySpace).mem h
  rw [List.mem_reverse] at h1
  exact (List.dropWhile_sublist isPySpace).mem h1

theorem pyLowerChar_idem (c : Char) :
    pyLowerChar (pyLowerChar c) = pyLowerChar c := by
  match hf : upperLower.find? (fun p => p.1 = c) with
  | Option.none =>
    have h1 : pyLowerChar c = c := by unfold pyLowerChar; rw [hf]
    rw [h1]
    exact h1
  | some p =>
    have hp : p ∈ upperLower := List.mem_of_find?_eq_some hf
    have h1 : pyLowerChar c = p.2 := by unfold pyLowerChar; rw [hf]
    have hnone : ∀ q ∈ upperLower,
        upperLower.find? (fun x => x.1 = q.2) = Option.none := by decide
    have h2 : pyLowerChar p.2 = p.2 := by unfold pyLowerChar; rw [hnone p hp]
    rw [h1, h2]

theorem lower_of_mem_lowered {c : Char} {l : List Char}
    (h : c ∈ l.map pyLowerChar) : pyLowerChar c = c := by
  rcases List.mem_map.mp h with ⟨c', _, hc'⟩
  rw [← hc']
  exact pyLowerChar_idem c'

theorem map_eq_self_of_fixed {l : List Char} {f : Char → Char}
    (h : ∀ c ∈ l, f c = c) : l.map f = l := by
  induction l with
  | nil => rfl
  | cons x xs ih => simp [h x (by simp), ih (fun c hc => h c (by simp [hc]))]

/-! ### `splitWs` / `joinWords` lemmas -/

theorem splitWs_sp_cons {c : Char} (cs : List Char) (h : isPySpace c = true) :
    splitWs (c :: cs) = splitWs cs := by
  show (if isPySpace c = true then splitWs cs
        else match cs, splitWs cs with
             | [], _ => [[c]]
             | d :: _, ws =>
               if isPySpace d = true then [c] :: ws
               else match ws with
                    | w :: ws' => (c :: w) :: ws'
                    | [] => [[c]]) = splitWs cs
  rw [if_pos h]

theorem splitWs_one {x : Char} (hx : isPySpace x = false) :
    splitWs [x] = [[x]] := by
  show (if isPySpace x = true then splitWs [] else [[x]]) = [[x]]
  rw [if_neg (by rw [hx]; simp)]

theorem splitWs_cons_cons (x y : Char) (ys : List Char)
    (hx : isPySpace x = false) :
    splitWs (x :: y :: ys) =
      if isPySpace y = true then [x] :: splitWs (y :: ys)
      else match splitWs (y :: ys) with
           | w :: ws' => (x :: w) :: ws'
           | [] => [[x]] := by
  show (if isPySpace x = true then splitWs (y :: ys)
        else if isPySpace y = true then [x] :: splitWs (y :: ys)
        else match splitWs (y :: ys) with
             | w :: ws' => (x :: w) :: ws'
             | [] => [[x]]) = _
  rw [if_neg (by rw [hx]; simp)]

theorem splitWs_single :
    ∀ (w : List Char), w ≠ [] → (∀ c ∈ w, isPySpace c = false) →
    splitWs w = [w] := by
  intro w
  induction w with
  | nil => intro h; exact absurd rfl h
  | cons x xs ih =>
    intro _ hall
    have hx : isPySpace x = false := hall x (by simp)
    cases xs with
    | nil => exact splitWs_one hx
    | cons y ys =>
      have hy : isPySpace y = false := hall y (by simp)
      have hrec : splitWs (y :: ys) = [y :: ys] :=
        ih (by simp) (fun c hc => hall c (by simp [List.mem_cons] at hc ⊢; tauto))
      rw [splitWs_cons_cons x y ys hx, if_neg (by rw [hy]; simp), hrec]

theorem splitWs_word_append :
    ∀ (w : List Char), w ≠ [] → (∀ c ∈ w, isPySpace c = false) →
    ∀ (rest : List Char), splitWs (w ++ ' ' :: rest) = w :: splitWs rest := by
  intro w
  induction w with
  | nil => intro h; exact absurd rfl h
  | cons x xs ih =>
    intro _ hall rest
    have hx : isPySpace x = false := hall x (by simp)
    cases xs with
    | nil =>
      show splitWs (x :: ' ' :: rest) = [x] :: splitWs rest
      rw [splitWs_cons_cons x ' ' rest hx, if_pos (by decide),
        splitWs_sp_cons rest (by decide)]
    | cons y ys =>
      have hy : isPySpace y = false := hall y (by simp)
      have hrec : splitWs ((y :: ys) ++ ' ' :: rest) = (y :: ys) :: splitWs rest :=
        ih (by simp) (fun c hc => hall c (by simp [List.mem_cons] at hc ⊢; tauto)) rest
      show splitWs (x :: ((y :: ys) ++ ' ' :: rest)) = (x :: y :: ys) :: splitWs rest
      simp only [List.cons_append] at hrec ⊢
      rw [splitWs_cons_cons x y (ys ++ ' ' :: rest) hx, if_neg (by rw [hy]; simp), hrec]

theorem splitWs_joinWords :
    ∀ (ws : List (List Char)),
    (∀ w ∈ ws, w ≠ [] ∧ ∀ c ∈ w, isPySpace c = false) →
    splitWs (joinWords ws) = ws := by
  intro ws
  induction ws with
  | nil => intro _; rfl
  | cons w ws ih =>
    intro hall
    obtain ⟨hne, hsp⟩ := hall w (by simp)
    cases ws with
    | nil => exact splitWs_single w hne hsp
    | cons w' ws' =>
      have hrec : splitWs (joinWords (w' :: ws')) = w' :: ws' :=
        ih (fun x hx => hall x (by simp [List.mem_cons] at hx ⊢; tauto))
      show splitWs (w ++ ' ' :: joinWords (w' :: ws')) = w :: w' :: ws'
      rw [splitWs_word_append w hne hsp, hrec]

theorem splitWs_pieces :
    ∀ (l : List Char), ∀ w ∈ splitWs l, w ≠ [] ∧ ∀ c ∈ w, isPySpace c = false := by
  intro l
  induction l with
  | nil => intro w hw; simp [splitWs] at hw
  | cons x xs ih =>
    intro w hw
    by_cases hx : isPySpace x
    · rw [splitWs_sp_cons xs hx] at hw
      exact ih w hw
    · have hx' : isPySpace x = false := by
        revert hx
        cases isPySpace x <;> simp
      cases xs with
      | nil =>
        rw [splitWs_one hx'] at hw
        simp at hw
        subst hw
        exact ⟨by simp, fun c hc => by
          simp at hc
          subst hc
          exact hx'⟩
      | cons y ys =>
        rw [splitWs_cons_cons x y ys hx'] at hw
        by_cases hy : isPySpace y
        · rw [if_pos hy] at hw
          rcases List.mem_cons.mp hw with h | h
          · subst h
            exact ⟨by simp, fun c hc => by
              simp at hc
              subst hc
              exact hx'⟩
          · exact ih w h
        · rw [if_neg hy] at hw
          match hws : splitWs (y :: ys) with
          | [] =>
            rw [hws] at hw
            simp at hw
            subst hw
            exact ⟨by simp, fun c hc => by
              simp at hc
              subst hc
              exact hx'⟩
          | w0 :: ws' =>
            rw [hws] at hw
            rcases List.mem_cons.mp hw with h | h
            · subst h
              obtain ⟨_, hw0⟩ := ih w0 (by rw [hws]; simp)
              exact ⟨by simp, fun c hc => by
                rcases List.mem_cons.mp hc with h1 | h1
                · subst h1; exact hx'
                · exact hw0 c h1⟩
            · exact ih w (by rw [hws]; simp [h])

theorem mem_splitWs {c : Char} :
    ∀ {l : List Char} {w : List Char}, w ∈ splitWs l → c ∈ w → c ∈ l := by
  intro l
  induction l with
  | nil => intro w hw; simp [splitWs] at hw
  | cons x xs ih =>
    intro w hw hc
    by_cases hx : isPySpace x
    · rw [splitWs_sp_cons xs hx] at hw
      exact List.mem_cons_of_mem x (ih hw hc)
    · have hx' : isPySpace x = false := by
        revert hx
        cases isPySpace x <;> simp
      cases xs with
      | nil =>
        rw [splitWs_one hx'] at hw
        simp at hw
        subst hw
        simp at hc
        simp [hc]
      | cons y ys =>
        rw [splitWs_cons_cons x y ys hx'] at hw
        by_cases hy : isPySpace y
        · rw [if_pos hy] at hw
          rcases List.mem_cons.mp hw with h | h
          · subst h
            simp at hc
            simp [hc]
          · exact List.mem_cons_of_mem x (ih h hc)
        · rw [if_neg hy] at hw
          match hws : splitWs (y :: ys) with
          | [] =>
            rw [hws] at hw
            simp at hw
            subst hw
            simp at hc
            simp [hc]
          | w0 :: ws' =>
            rw [hws] at hw
            rcases List.mem_cons.mp hw with h | h
            · subst h
              rcases List.mem_cons.mp hc with h1 | h1
              · simp [h1]
              · exact List.mem_cons_of_mem x (ih (by rw [hws]; simp) h1)
            · exact List.mem_cons_of_mem x (ih (by rw [hws]; simp [h]) hc)

theorem joinWords_ne_nil {ws : List (List Char)}
    (hne : ws ≠ []) (hall : ∀ w ∈ ws, w ≠ []) : joinWords ws ≠ [] := by
  cases ws with
  | nil => exact absurd rfl hne
  | cons w ws' =>
    cases ws' with
    | nil => exact hall w (by simp)
    | cons w' t =>
      show w ++ ' ' :: joinWords (w' :: t) ≠ []
      cases hw : w with
      | nil => exact absurd hw (hall w (by simp))
      | cons a b => simp

theorem mem_joinWords {c : Char} :
    ∀ {ws : List (List Char)}, c ∈ joinWords ws →
    (∃ w ∈ ws, c ∈ w) ∨ c = ' ' := by
  intro ws
  induction ws with
  | nil => intro h; simp [joinWords] at h
  | cons w ws ih =>
    intro h
    cases ws with
    | nil =>
      exact Or.inl ⟨w, by simp, h⟩
    | cons w' t =>
      rcases List.mem_append.mp h with h1 | h1
      · exact Or.inl ⟨w, by simp, h1⟩
      · rcases List.mem_cons.mp h1 with h2 | h2
        · exact Or.inr h2
        · rcases ih h2 with ⟨w0, hw0, hc⟩ | h3
          · exact Or.inl ⟨w0, by simp [hw0], hc⟩
          · exact Or.inr h3

theorem noLead_joinWords {ws : List (List Char)}
    (hall : ∀ w ∈ ws, w ≠ [] ∧ ∀ c ∈ w, isPySpace c = false) :
    noLead (joinWords ws) := by
  cases ws with
  | nil => intro c t h; simp [joinWords] at h
  | cons w ws' =>
    obtain ⟨hne, hsp⟩ := hall w (by simp)
    cases ws' with
    | nil =>
      intro c t h
      have hw : w = c :: t := h
      exact hsp c (by rw [hw]; simp)
    | cons w' t' =>
      intro c t h
      show isPySpace c = false
      have hj : joinWords (w :: w' :: t') = w ++ ' ' :: joinWords (w' :: t') := rfl
      rw [hj] at h
      cases hw : w with
      | nil => exact absurd hw hne
      | cons a b =>
        rw [hw, List.cons_append] at h
        have hac : a = c := by injection h
        rw [← hac]
        exact hsp a (by rw [hw]; simp)

theorem noTrail_joinWords {ws : List (List Char)}
    (hall : ∀ w ∈ ws, w ≠ [] ∧ ∀ c ∈ w, isPySpace c = false) :
    noTrail (joinWords ws) := by
  induction ws with
  | nil => intro c t h; simp [joinWords] at h
  | cons w ws' ih =>
    obtain ⟨hne, hsp⟩ := hall w (by simp)
    cases ws' with
    | nil =>
      intro c t h
      have hwr : w.reverse = c :: t := h
      have hc : c ∈ w := List.mem_reverse.mp (by rw [hwr]; simp)
      exact hsp c hc
    | cons w' t' =>
      have hrec : noTrail (joinWords (w' :: t')) :=
        ih (fun x hx => hall x (by simp [List.mem_cons] at hx ⊢; tauto))
      intro c t h
      have hjne : joinWords (w' :: t') ≠ [] :=
        joinWords_ne_nil (by simp)
          (fun x hx => (hall x (by simp [List.mem_cons] at hx ⊢; tauto)).1)
      have hjeq : joinWords (w :: w' :: t') = w ++ ' ' :: joinWords (w' :: t') := rfl
      rw [hjeq, List.reverse_append, List.reverse_cons] at h
      cases hj : (joinWords (w' :: t')).reverse with
      | nil =>
        exact absurd (by rw [← List.reverse_reverse (joinWords (w' :: t')), hj]; rfl) hjne
      | cons a b =>
        rw [hj] at h
        simp only [List.cons_append, List.append_assoc] at h
        have hac : a = c := by injection h
        rw [← hac]
        exact hrec a b hj

/-! ### `normalize` idempotence -/

theorem normalize_chars_lowered {s : String} {c : Char}
    (h : c ∈ (normalize s).data) : pyLowerChar c = c := by
  unfold normalize at h
  by_cases hs : s = ""
  · rw [if_pos hs] at h
    simp at h
  · rw [if_neg hs] at h
    rcases mem_joinWords h with ⟨w, hw, hc⟩ | hsp
    · have h1 : c ∈ trimChars (s.data.map pyLowerChar) := mem_splitWs hw hc
      exact lower_of_mem_lowered (mem_trimChars h1)
    · rw [hsp]
      rfl

theorem normalize_idem (s : String) : normalize (normalize s) = normalize s := by
  by_cases hs : s = ""
  · rw [hs]
    rfl
  · by_cases hns : normalize s = ""
    · rw [hns]
      rfl
    · have hpieces : ∀ w ∈ splitWs (trimChars (s.data.map pyLowerChar)),
          w ≠ [] ∧ ∀ c ∈ w, isPySpace c = false := splitWs_pieces _
      have hdata : (normalize s).data =
          joinWords (splitWs (trimChars (s.data.map pyLowerChar))) := by
        unfold normalize
        rw [if_neg hs]
      conv_lhs => rw [normalize, if_neg hns]
      have hlow : (normalize s).data.map pyLowerChar = (normalize s).data :=
        map_eq_self_of_fixed (fun c hc => normalize_chars_lowered hc)
      rw [hlow, hdata]
      have htrim : trimChars (joinWords (splitWs (trimChars (s.data.map pyLowerChar)))) =
          joinWords (splitWs (trimChars (s.data.map pyLowerChar))) := by
        show dropTrail ((joinWords (splitWs (trimChars
          (s.data.map pyLowerChar)))).dropWhile isPySpace) = _
        rw [dropWhile_of_noLead (noLead_joinWords hpieces),
          dropTrail_of_noTrail (noTrail_joinWords hpieces)]
      rw [htrim, splitWs_joinWords _ hpieces, ← hdata]

/-! ### `get_description` lemmas -/

theorem getDescAux_eq_claim (r : Record) :
    ∀ (cs : List String),
    (∀ f ∈ cs, (pyTruthy (lookupD r f)).isSome = true) →
    getDescAux r cs = .ok (claimDescAux r cs) := by
  intro cs
  induction cs with
  | nil => intro _; rfl
  | cons f rest ih =>
    intro h
    have hrest := ih (fun x hx => h x (by simp [hx]))
    have hf := h f (by simp)
    by_cases hhas : hasField r f
    · match hv : lookupVal r f with
      | Option.none =>
        unfold hasField at hhas
        rw [hv] at hhas
        simp at hhas
      | some v =>
        have hlD : lookupD r f = v := by simp [lookupD, hv]
        cases v with
        | str s =>
          by_cases hs : s = ""
          · subst hs
            simp [getDescAux, claimDescAux, hhas, hv, hlD, pyTruthy, hrest,
              show ¬ 3 ≤ (pyStrip "").length by decide]
          · by_cases hlen : 3 ≤ (pyStrip s).length
            · simp [getDescAux, claimDescAux, hhas, hv, hlD, pyTruthy, hs, hlen]
            · simp [getDescAux, claimDescAux, hhas, hv, hlD, pyTruthy, hs, hlen,
                hrest]
        | none => simp [getDescAux, claimDescAux, hhas, hv, hlD, pyTruthy, hrest]
        | nan => simp [getDescAux, claimDescAux, hhas, hv, hlD, pyTruthy, hrest]
        | int n =>
          rcases Bool.eq_false_or_eq_true (decide (n ≠ 0)) with hb | hb <;>
            simp [getDescAux, claimDescAux, hhas, hv, hlD, pyTruthy, hb, hrest]
        | bool b =>
          cases b <;> simp [getDescAux, claimDescAux, hhas, hv, hlD, pyTruthy, hrest]
        | pylist l =>
          rcases Bool.eq_false_or_eq_true (decide (¬ l.isEmpty)) with hb | hb <;>
            simp [getDescAux, claimDescAux, hhas, hv, hlD, pyTruthy, hb, hrest]
        | ndarray l =>
          match l with
          | [] =>
            rw [hlD] at hf
            simp [pyTruthy] at hf
          | [x] =>
            cases hx : scalarTruthy x <;>
              simp [getDescAux, claimDescAux, hhas, hv, hlD, pyTruthy, hx, hrest]
          | a :: b :: t =>
            rw [hlD] at hf
            simp [pyTruthy] at hf
    · have hv : lookupVal r f = Option.none := by
        unfold hasField at hhas
        revert hhas
        cases hlv : lookupVal r f <;> simp
      simp [getDescAux, claimDescAux, hhas, hv, hrest]

/-- One step of the candidate scan: either the head field is skipped, or it
yields the stripped qualifying string, or truthiness raises. -/
theorem getDescAux_step (r : Record) (f : String) (rest : List String) :
    getDescAux r (f :: rest) = getDescAux r rest ∨
    (∃ s, lookupVal r f = some (.str s) ∧ 3 ≤ (pyStrip s).length ∧
      getDescAux r (f :: rest) = .ok (pyStrip s)) ∨
    (∃ e, getDescAux r (f :: rest) = .error e) := by
  by_cases hhas : hasField r f
  · match hv : lookupVal r f with
    | Option.none =>
      unfold hasField at hhas
      rw [hv] at hhas
      simp at hhas
    | some v =>
      have hlD : lookupD r f = v := by simp [lookupD, hv]
      cases v with
      | str s =>
        by_cases hs : s = ""
        · subst hs
          left
          simp [getDescAux, hhas, hlD, pyTruthy]
        · by_cases hlen : 3 ≤ (pyStrip s).length
          · right; left
            exact ⟨s, rfl, hlen, by simp [getDescAux, hhas, hlD, pyTruthy, hs, hlen]⟩
          · left
            simp [getDescAux, hhas, hlD, pyTruthy, hs, hlen]
      | none => left; simp [getDescAux, hhas, hlD, pyTruthy]
      | nan => left; simp [getDescAux, hhas, hlD, pyTruthy]
      | int n =>
        left
        rcases Bool.eq_false_or_eq_true (decide (n ≠ 0)) with hb | hb <;>
          simp [getDescAux, hhas, hlD, pyTruthy, hb]
      | bool b =>
        left
        cases b <;> simp [getDescAux, hhas, hlD, pyTruthy]
      | pylist l =>
        left
        rcases Bool.eq_false_or_eq_true (decide (¬ l.isEmpty)) with hb | hb <;>
          simp [getDescAux, hhas, hlD, pyTruthy, hb]
      | ndarray l =>
        match l with
        | [] =>
          right; right
          exact ⟨.truthyErr, by simp [getDescAux, hhas, hlD, pyTruthy]⟩
        | [x] =>
          left
          cases hx : scalarTruthy x <;> simp [getDescAux, hhas, hlD, pyTruthy, hx]
        | a :: b :: t =>
          right; right
          exact ⟨.truthyErr, by simp [getDescAux, hhas, hlD, pyTruthy]⟩
  · have hv : lookupVal r f = Option.none := by
      unfold hasField at hhas
      revert hhas
      cases hlv : lookupVal r f <;> simp
    left
    simp [getDescAux, hhas]

theorem getDescAux_ok_shape (r : Record) :
    ∀ (cs : List String) (d : String), getDescAux r cs = .ok d →
    d = "" ∨ ∃ f ∈ cs, ∃ s, lookupVal r f = some (.str s) ∧
      3 ≤ (pyStrip s).length ∧ d = pyStrip s := by
  intro cs
  induction cs with
  | nil =>
    intro d h
    left
    have : (Except.ok "" : Except Err String) = .ok d := h
    injection this with h'
    exact h'.symm
  | cons f rest ih =>
    intro d h
    rcases getDescAux_step r f rest with hstep | ⟨s, hv, hlen, hok⟩ | ⟨e, herr⟩
    · rw [hstep] at h
      rcases ih d h with h1 | ⟨f', hf', hrest⟩
      · exact Or.inl h1
      · exact Or.inr ⟨f', by simp [hf'], hrest⟩
    · rw [hok] at h
      injection h with h'
      exact Or.inr ⟨f, by simp, s, hv, hlen, h'.symm⟩
    · rw [herr] at h
      exact absurd h (by simp)

/-! ## C8 — description extraction -/

/-- C8 counterexample: a record whose highest-priority candidate holds a
two-element array makes `bool(value)` (line 24) raise `ValueError`, so
extraction errors out instead of returning the empty string the claim
prescribes when no candidate qualifies. -/
theorem c8_array_candidate_raises :
    get_description [("page_url", Value.str "u"),
        ("product_summary", Value.ndarray [Scalar.int 1, Scalar.int 2])] =
      .error Err.truthyErr ∧
    claimDesc [("page_url", Value.str "u"),
        ("product_summary", Value.ndarray [Scalar.int 1, Scalar.int 2])] = "" ∧
    (Except.error Err.truthyErr : Except Err String) ≠ .ok "" :=
  ⟨rfl, rfl, fun h => Except.noConfusion h⟩

/-- C8 (amended): provided every present candidate value has a well-defined
truth value (in particular is not a multi-element array), description
extraction scans the candidate fields in the fixed priority order
(product_summary, description, product_title, product_name), returns the
stripped value of the first candidate that is a non-null string of trimmed
length at least 3, and the empty string when no candidate qualifies; an
absent candidate field is skipped silently. -/
theorem c8_get_description_eq_claim (r : Record)
    (h : ∀ f ∈ candidateFields, (pyTruthy (lookupD r f)).isSome = true) :
    get_description r = .ok (claimDesc r) :=
  getDescAux_eq_claim r candidateFields h

/-- C8 witness: a record with a short summary and a qualifying title. -/
theorem c8_get_description_eq_claim_witness :
    (∀ f ∈ candidateFields,
      (pyTruthy (lookupD [("product_summary", Value.str "  ab "),
        ("product_title", Value.str " Nice Thing ")] f)).isSome = true) ∧
    get_description [("product_summary", Value.str "  ab "),
        ("product_title", Value.str " Nice Thing ")] =
      .ok (claimDesc [("product_summary", Value.str "  ab "),
        ("product_title", Value.str " Nice Thing ")]) :=
  ⟨by decide, c8_get_description_eq_claim _ (by decide)⟩

/-! ## C10 — the extracted description is trimmed and normalization is
idempotent on it -/

/-- C10: a successfully extracted description is either empty or the
whitespace-stripped value of one of the candidate fields (not the raw
value), of length at least 3 and invariant under stripping; and normalizing
an already-normalized description is a no-op. -/
theorem c10_description_trimmed (r : Record) (d : String)
    (h : get_description r = .ok d) :
    (d = "" ∨ (pyStrip d = d ∧ 3 ≤ d.length ∧
      ∃ f ∈ candidateFields, isStrCell (lookupVal r f) = true ∧
        d = pyStrip (strOf (lookupD r f)))) ∧
    normalize (normalize d) = normalize d := by
  constructor
  · rcases getDescAux_ok_shape r candidateFields d h with h1 | ⟨f, hf, s, hv, hlen, hd⟩
    · exact Or.inl h1
    · right
      refine ⟨by rw [hd, pyStrip_idem], by rw [hd]; exact hlen, f, hf, ?_, ?_⟩
      · rw [hv]
        rfl
      · rw [hd]
        simp [lookupD, hv, strOf]
  · exact normalize_idem d

/-- C10 witness: a concrete record with an untrimmed qualifying candidate. -/
theorem c10_description_trimmed_witness :
    get_description [("product_title", Value.str " Nice Thing ")] =
      .ok "Nice Thing" ∧
    (("Nice Thing" : String) = "" ∨ (pyStrip "Nice Thing" = "Nice Thing" ∧
      3 ≤ ("Nice Thing" : String).length ∧
      ∃ f ∈ candidateFields,
        isStrCell (lookupVal [("product_title", Value.str " Nice Thing ")] f) = true ∧
        ("Nice Thing" : String) =
          pyStrip (strOf (lookupD [("product_title", Value.str " Nice Thing ")] f)))) ∧
    normalize (normalize "Nice Thing") = normalize "Nice Thing" := by
  refine ⟨rfl, ?_⟩
  exact c10_description_trimmed [("product_title", Value.str " Nice Thing ")]
    "Nice Thing" rfl

/-! ### Key-derivation lemmas -/

theorem data_append (a b : String) : (a ++ b).data = a.data ++ b.data := rfl

theorem prepNorm_desc (r : Record) (d : String) :
    prepNorm (setVal r "description" (.str d)) =
      setVal (setVal r "description" (.str d)) "normalized_desc"
        (.str (normalize d)) := by
  unfold prepNorm
  rw [lookupD_setVal_self r "description" (.str d)]
  rfl

theorem prepPref_norm (r : Record) (d : String) :
    prepPref (setVal (setVal r "description" (.str d))
        "normalized_desc" (.str (normalize d))) =
      setVal (setVal (setVal r "description" (.str d)) "normalized_desc"
        (.str (normalize d))) "desc_prefix"
        (.str (String.mk ((normalize d).data.take 20))) := by
  unfold prepPref
  rw [lookupD_setVal_self _ "normalized_desc" (.str (normalize d))]
  rfl

theorem stage3_url (r : Record) (d : String) :
    lookupVal (setVal (setVal (setVal r "description" (.str d))
        "normalized_desc" (.str (normalize d))) "desc_prefix"
        (.str (String.mk ((normalize d).data.take 20)))) "page_url" =
      lookupVal r "page_url" := by
  rw [lookupVal_setVal_ne _ _ (by decide), lookupVal_setVal_ne _ _ (by decide),
    lookupVal_setVal_ne _ _ (by decide)]

theorem stage3_pref (r : Record) (d : String) :
    lookupVal (setVal (setVal (setVal r "description" (.str d))
        "normalized_desc" (.str (normalize d))) "desc_prefix"
        (.str (String.mk ((normalize d).data.take 20)))) "desc_prefix" =
      some (.str (String.mk ((normalize d).data.take 20))) :=
  lookupVal_setVal_self _ _ _

/-- The key-assignment stage applied to a fully prepared row succeeds and
yields what `prepF` computes. -/
theorem prepKeyE_stage3 (r : Record) (d : String) (u : String)
    (hu : lookupVal r "page_url" = some (.str u)) :
    prepKeyE (setVal (setVal (setVal r "description" (.str d))
        "normalized_desc" (.str (normalize d))) "desc_prefix"
        (.str (String.mk ((normalize d).data.take 20)))) =
      .ok (setVal (setVal (setVal (setVal r "description" (.str d))
        "normalized_desc" (.str (normalize d))) "desc_prefix"
        (.str (String.mk ((normalize d).data.take 20)))) "dedup_key"
        (.str (u ++ "|||" ++ String.mk ((normalize d).data.take 20)))) := by
  unfold prepKeyE
  rw [stage3_url, hu, stage3_pref]

/-- The prepared row, written out: the original row with the four derived
cells set. -/
theorem prepF_explicit (r : Record) (d : String) (u : String)
    (hd : get_description r = .ok d)
    (hu : lookupVal r "page_url" = some (.str u)) :
    prepF r =
      setVal (setVal (setVal (setVal r "description" (.str d))
        "normalized_desc" (.str (normalize d))) "desc_prefix"
        (.str (String.mk ((normalize d).data.take 20)))) "dedup_key"
        (.str (u ++ "|||" ++ String.mk ((normalize d).data.take 20))) := by
  have hred : prepF r =
      (match prepKeyE (prepPref (prepNorm (setVal r "description" (.str d)))) with
       | .ok r' => r'
       | .error _ => prepPref (prepNorm (setVal r "description" (.str d)))) := by
    unfold prepF
    rw [hd]
  rw [hred, prepNorm_desc, prepPref_norm, prepKeyE_stage3 r d u hu]

/-- The three derived cells and the untouched `page_url` cell of a prepared
row, for a row whose description extraction succeeded and whose `page_url`
holds a string. -/
theorem prepF_cells (r : Record) (d : String) (u : String)
    (hd : get_description r = .ok d) (hu : lookupVal r "page_url" = some (.str u)) :
    lookupVal (prepF r) "dedup_key" =
      some (.str (u ++ "|||" ++ String.mk ((normalize d).data.take 20))) ∧
    lookupVal (prepF r) "desc_prefix" =
      some (.str (String.mk ((normalize d).data.take 20))) ∧
    lookupVal (prepF r) "page_url" = some (.str u) := by
  rw [prepF_explicit r d u hd hu]
  refine ⟨lookupVal_setVal_self _ _ _, ?_, ?_⟩
  · rw [lookupVal_setVal_ne _ _ (by decide)]
    exact stage3_pref r d
  · rw [lookupVal_setVal_ne _ _ (by decide), stage3_url, hu]

theorem append_delim_cancel :
    ∀ (u₁ u₂ p₁ p₂ : List Char),
    '|' ∉ u₁ → '|' ∉ u₂ →
    u₁ ++ '|' :: '|' :: '|' :: p₁ = u₂ ++ '|' :: '|' :: '|' :: p₂ →
    u₁ = u₂ ∧ p₁ = p₂ := by
  intro u₁
  induction u₁ with
  | nil =>
    intro u₂ p₁ p₂ _ h2 heq
    cases u₂ with
    | nil =>
      rw [List.nil_append, List.nil_append] at heq
      injection heq with _ heq
      injection heq with _ heq
      injection heq with _ heq
      exact ⟨rfl, heq⟩
    | cons c t =>
      rw [List.nil_append, List.cons_append] at heq
      injection heq with hc _
      exact absurd (by rw [hc]; simp : '|' ∈ c :: t) h2
  | cons c t ih =>
    intro u₂ p₁ p₂ h1 h2 heq
    cases u₂ with
    | nil =>
      rw [List.nil_append, List.cons_append] at heq
      injection heq with hc _
      exact absurd (by rw [← hc]; simp : '|' ∈ c :: t) h1
    | cons c' t' =>
      rw [List.cons_append, List.cons_append] at heq
      injection heq with hc htail
      obtain ⟨ht, hp⟩ := ih t' p₁ p₂ (fun hm => h1 (by simp [hm]))
        (fun hm => h2 (by simp [hm])) htail
      exact ⟨by rw [hc, ht], hp⟩

theorem string_delim_cancel (u₁ u₂ p₁ p₂ : String)
    (h1 : '|' ∉ u₁.data) (h2 : '|' ∉ u₂.data)
    (heq : u₁ ++ "|||" ++ p₁ = u₂ ++ "|||" ++ p₂) : u₁ = u₂ ∧ p₁ = p₂ := by
  have hdata : u₁.data ++ '|' :: '|' :: '|' :: p₁.data =
      u₂.data ++ '|' :: '|' :: '|' :: p₂.data := by
    have h := congrArg String.data heq
    rw [data_append, data_append, data_append, data_append] at h
    simpa [List.append_assoc] using h
  obtain ⟨hu, hp⟩ := append_delim_cancel u₁.data u₂.data p₁.data p₂.data h1 h2 hdata
  exact ⟨String.ext hu, String.ext hp⟩

/-! ## C9 — key totality and characterisation of key equality -/

/-- C9 counterexample: the delimiter `|||` can occur inside a URL, so two
records with different URLs and different prefixes share the key
`"a|||b|||ccc"`; key equality does not imply equal URL and prefix. -/
theorem c9_delimiter_collision :
    kOf [("page_url", Value.str "a|||b"), ("product_summary", Value.str "ccc")] =
      kOf [("page_url", Value.str "a"), ("product_summary", Value.str "b|||ccc")] ∧
    urlStrOf [("page_url", Value.str "a|||b"), ("product_summary", Value.str "ccc")] ≠
      urlStrOf [("page_url", Value.str "a"), ("product_summary", Value.str "b|||ccc")] ∧
    prefStrOf [("page_url", Value.str "a|||b"), ("product_summary", Value.str "ccc")] ≠
      prefStrOf [("page_url", Value.str "a"), ("product_summary", Value.str "b|||ccc")] := by
  decide

/-- C9 (amended): for records whose `page_url` is a string and whose
description extraction does not raise, a key is always computed; identical
URL and identical 20-character prefix give identical keys; and the converse
— equal keys imply identical URL and prefix — holds under the additional
assumption that the URLs contain no `'|'` character (without it the
delimiter can be forged, as the counterexample shows). -/
theorem c9_key_characterisation (r₁ r₂ : Record)
    (h1d : okBool (get_description r₁) = true)
    (h1u : isStrCell (lookupVal r₁ "page_url") = true)
    (h2d : okBool (get_description r₂) = true)
    (h2u : isStrCell (lookupVal r₂ "page_url") = true) :
    isStrCell (lookupVal (prepF r₁) "dedup_key") = true ∧
    isStrCell (lookupVal (prepF r₂) "dedup_key") = true ∧
    (urlStrOf r₁ = urlStrOf r₂ → prefStrOf r₁ = prefStrOf r₂ →
      kOf r₁ = kOf r₂) ∧
    ('|' ∉ (urlStrOf r₁).data → '|' ∉ (urlStrOf r₂).data →
      kOf r₁ = kOf r₂ →
      urlStrOf r₁ = urlStrOf r₂ ∧ prefStrOf r₁ = prefStrOf r₂) := by
  obtain ⟨d₁, hd₁⟩ : ∃ d, get_description r₁ = .ok d := by
    revert h1d
    cases h : get_description r₁ <;> simp [okBool]
  obtain ⟨d₂, hd₂⟩ : ∃ d, get_description r₂ = .ok d := by
    revert h2d
    cases h : get_description r₂ <;> simp [okBool]
  obtain ⟨u₁, hu₁⟩ : ∃ u, lookupVal r₁ "page_url" = some (.str u) := by
    revert h1u
    match h : lookupVal r₁ "page_url" with
    | some (.str u) => intro _; exact ⟨u, rfl⟩
    | some (.none) | some (.nan) | some (.int _) | some (.bool _)
    | some (.pylist _) | some (.ndarray _) | Option.none => simp [isStrCell]
  obtain ⟨u₂, hu₂⟩ : ∃ u, lookupVal r₂ "page_url" = some (.str u) := by
    revert h2u
    match h : lookupVal r₂ "page_url" with
    | some (.str u) => intro _; exact ⟨u, rfl⟩
    | some (.none) | some (.nan) | some (.int _) | some (.bool _)
    | some (.pylist _) | some (.ndarray _) | Option.none => simp [isStrCell]
  obtain ⟨hk₁, hp₁, _⟩ := prepF_cells r₁ d₁ u₁ hd₁ hu₁
  obtain ⟨hk₂, hp₂, _⟩ := prepF_cells r₂ d₂ u₂ hd₂ hu₂
  have hus₁ : urlStrOf r₁ = u₁ := by rw [urlStrOf, hu₁]
  have hus₂ : urlStrOf r₂ = u₂ := by rw [urlStrOf, hu₂]
  have hps₁ : prefStrOf r₁ = String.mk ((normalize d₁).data.take 20) := by
    rw [prefStrOf, hp₁]
  have hps₂ : prefStrOf r₂ = String.mk ((normalize d₂).data.take 20) := by
    rw [prefStrOf, hp₂]
  have hk₁' : kOf r₁ = .str (urlStrOf r₁ ++ "|||" ++ prefStrOf r₁) := by
    rw [kOf, lookupD, hk₁, hus₁, hps₁]
    rfl
  have hk₂' : kOf r₂ = .str (urlStrOf r₂ ++ "|||" ++ prefStrOf r₂) := by
    rw [kOf, lookupD, hk₂, hus₂, hps₂]
    rfl
  refine ⟨by rw [hk₁]; rfl, by rw [hk₂]; rfl, ?_, ?_⟩
  · intro hu hp
    rw [hk₁', hk₂', hu, hp]
  · intro hnp₁ hnp₂ hkeq
    rw [hk₁', hk₂'] at hkeq
    injection hkeq with hkeq
    exact string_delim_cancel _ _ _ _ hnp₁ hnp₂ hkeq

/-- C9 witness: two concrete records with pipe-free URLs. -/
theorem c9_key_characterisation_witness :
    (okBool (get_description [("page_url", Value.str "u1"),
        ("product_summary", Value.str "ccc")]) = true ∧
      isStrCell (lookupVal [("page_url", Value.str "u1"),
        ("product_summary", Value.str "ccc")] "page_url") = true ∧
      okBool (get_description [("page_url", Value.str "u2"),
        ("product_summary", Value.str "ddd")]) = true ∧
      isStrCell (lookupVal [("page_url", Value.str "u2"),
        ("product_summary", Value.str "ddd")] "page_url") = true) ∧
    (isStrCell (lookupVal (prepF [("page_url", Value.str "u1"),
        ("product_summary", Value.str "ccc")]) "dedup_key") = true ∧
      isStrCell (lookupVal (prepF [("page_url", Value.str "u2"),
        ("product_summary", Value.str "ddd")]) "dedup_key") = true ∧
      (urlStrOf [("page_url", Value.str "u1"), ("product_summary", Value.str "ccc")] =
          urlStrOf [("page_url", Value.str "u2"), ("product_summary", Value.str "ddd")] →
        prefStrOf [("page_url", Value.str "u1"), ("product_summary", Value.str "ccc")] =
          prefStrOf [("page_url", Value.str "u2"), ("product_summary", Value.str "ddd")] →
        kOf [("page_url", Value.str "u1"), ("product_summary", Value.str "ccc")] =
          kOf [("page_url", Value.str "u2"), ("product_summary", Value.str "ddd")]) ∧
      ('|' ∉ (urlStrOf [("page_url", Value.str "u1"),
          ("product_summary", Value.str "ccc")]).data →
        '|' ∉ (urlStrOf [("page_url", Value.str "u2"),
          ("product_summary", Value.str "ddd")]).data →
        kOf [("page_url", Value.str "u1"), ("product_summary", Value.str "ccc")] =
          kOf [("page_url", Value.str "u2"), ("product_summary", Value.str "ddd")] →
        urlStrOf [("page_url", Value.str "u1"), ("product_summary", Value.str "ccc")] =
          urlStrOf [("page_url", Value.str "u2"), ("product_summary", Value.str "ddd")] ∧
        prefStrOf [("page_url", Value.str "u1"), ("product_summary", Value.str "ccc")] =
          prefStrOf [("page_url", Value.str "u2"),
            ("product_summary", Value.str "ddd")])) :=
  ⟨⟨by decide, by decide, by decide, by decide⟩,
    c9_key_characterisation _ _ (by decide) (by decide) (by decide) (by decide)⟩

/-! ### Pipeline and grouping lemmas -/

theorem okBool_get_desc {r : Record} (h : okBool (get_description r) = true) :
    ∃ d, get_description r = .ok d := by
  revert h
  cases hg : get_description r <;> simp [okBool]

theorem isStrCell_url {r : Record} (c : String)
    (h : isStrCell (lookupVal r c) = true) :
    ∃ u, lookupVal r c = some (.str u) := by
  revert h
  match hg : lookupVal r c with
  | some (.str u) => intro _; exact ⟨u, rfl⟩
  | some (.none) | some (.nan) | some (.int _) | some (.bool _)
  | some (.pylist _) | some (.ndarray _) | Option.none => simp [isStrCell]

theorem merge_group_singleton (cols : List String) (r : Record) :
    merge_group cols [r] = r := rfl

theorem mem_enumFrom_snd {α : Type} :
    ∀ (l : List α) (n : Nat) (pr : Nat × α), pr ∈ List.enumFrom n l → pr.2 ∈ l := by
  intro l
  induction l with
  | nil => intro n pr h; simp at h
  | cons x xs ih =>
    intro n pr h
    rcases List.mem_cons.mp h with he | hm
    · rw [he]
      simp
    · exact List.mem_cons_of_mem x (ih (n + 1) pr hm)

theorem mem_othersOf {g : List Record} {bi : Nat} {r' : Record}
    (h : r' ∈ othersOf g bi) : r' ∈ g := by
  unfold othersOf at h
  rcases List.mem_map.mp h with ⟨pr, hpr, hsnd⟩
  have hin : pr ∈ g.enum := (List.mem_filter.mp hpr).1
  rw [← hsnd]
  exact mem_enumFrom_snd g 0 pr hin

theorem lookupVal_isSome_of_mem {r : Record} {c : String} {v : Value}
    (h : (c, v) ∈ r) : (lookupVal r c).isSome := by
  induction r with
  | nil => simp at h
  | cons p rest ih =>
    by_cases hp : p.1 = c
    · simp [lookupVal, hp]
    · rcases List.mem_cons.mp h with he | hm
      · exact absurd (by rw [← he]) hp
      · simp [lookupVal, hp, ih hm]

theorem lookupVal_isSome_of_mem_keys {r : Record} {c : String}
    (h : c ∈ r.map Prod.fst) : (lookupVal r c).isSome := by
  rcases List.mem_map.mp h with ⟨p, hp, hfst⟩
  exact lookupVal_isSome_of_mem (show (c, p.2) ∈ r by rw [← hfst]; exact hp)

theorem contains_eq_false {l : List String} {a : String} (h : a ∉ l) :
    l.contains a = false := by
  cases hc : l.contains a with
  | false => rfl
  | true => exact absurd (List.mem_of_elem_eq_true (show l.elem a = true from hc)) h

theorem lookupVal_dropTemp (m : Record) (c : String) (hc : c ∉ tempCols) :
    lookupVal (dropTemp m) c = lookupVal m c := by
  induction m with
  | nil => rfl
  | cons p rest ih =>
    by_cases hp : tempCols.contains p.1
    · have hmem : p.1 ∈ tempCols :=
        List.mem_of_elem_eq_true (show tempCols.elem p.1 = true from hp)
      have hne : p.1 ≠ c := fun he => hc (he ▸ hmem)
      have hdrop : dropTemp (p :: rest) = dropTemp rest := by
        unfold dropTemp
        rw [List.filter_cons_of_neg (by simp [hmem])]
      rw [hdrop, ih]
      simp [lookupVal, hne]
    · have hnmem : p.1 ∉ tempCols := fun hm =>
        hp (show tempCols.elem p.1 = true from List.elem_eq_true_of_mem hm)
      have hkeep : dropTemp (p :: rest) = p :: dropTemp rest := by
        unfold dropTemp
        rw [List.filter_cons_of_pos (by simp [hnmem])]
      rw [hkeep]
      by_cases hpc : p.1 = c
      · simp [lookupVal, hpc]
      · simp [lookupVal, hpc, ih]

theorem dropTemp_keys (m : Record) :
    (dropTemp m).map Prod.fst =
      (m.map Prod.fst).filter (fun c => !(tempCols.contains c)) := by
  unfold dropTemp
  rw [List.filter_map]
  rfl

theorem addCols_eq (cols0 : List String) (h : ∀ c ∈ tempCols, c ∉ cols0) :
    addCols cols0 = cols0 ++ tempCols := by
  have h1 : cols0.contains "description" = false :=
    contains_eq_false (h _ (by decide))
  have h2 : (cols0 ++ ["description"]).contains "normalized_desc" = false :=
    contains_eq_false (by
      intro hmem
      rcases List.mem_append.mp hmem with hm | hm
      · exact h _ (by decide) hm
      · simp at hm)
  have h3 : ((cols0 ++ ["description"]) ++ ["normalized_desc"]).contains
      "desc_prefix" = false :=
    contains_eq_false (by
      intro hmem
      rcases List.mem_append.mp hmem with hm | hm
      · rcases List.mem_append.mp hm with hm' | hm'
        · exact h _ (by decide) hm'
        · simp at hm'
      · simp at hm)
  have h4 : (((cols0 ++ ["description"]) ++ ["normalized_desc"]) ++
      ["desc_prefix"]).contains "dedup_key" = false :=
    contains_eq_false (by
      intro hmem
      rcases List.mem_append.mp hmem with hm | hm
      · rcases List.mem_append.mp hm with hm' | hm'
        · rcases List.mem_append.mp hm' with hm'' | hm''
          · exact h _ (by decide) hm''
          · simp at hm''
        · simp at hm'
      · simp at hm)
  show List.foldl _ cols0 ["description", "normalized_desc", "desc_prefix", "dedup_key"] =
    cols0 ++ tempCols
  rw [List.foldl_cons, if_neg (by rw [h1]; simp),
    List.foldl_cons, if_neg (by rw [h2]; simp),
    List.foldl_cons, if_neg (by rw [h3]; simp),
    List.foldl_cons, if_neg (by rw [h4]; simp),
    List.foldl_nil]
  simp [tempCols, List.append_assoc]

theorem filter_not_temp (cols0 : List String) (h : ∀ c ∈ tempCols, c ∉ cols0) :
    (cols0 ++ tempCols).filter (fun c => !(tempCols.contains c)) = cols0 := by
  rw [List.filter_append]
  have h1 : cols0.filter (fun c => !(tempCols.contains c)) = cols0 :=
    List.filter_eq_self.mpr (fun c hc => by
      have : c ∉ tempCols := fun hmem => h c hmem hc
      rw [contains_eq_false this]
      rfl)
  have h2 : tempCols.filter (fun c => !(tempCols.contains c)) = [] := by decide
  rw [h1, h2, List.append_nil]

/-- The shape of a prepared reserved-free row: the original row with the four
derived cells appended, in order. -/
theorem prepF_shape (r : Record) (d : String) (u : String)
    (hd : get_description r = .ok d)
    (hu : lookupVal r "page_url" = some (.str u))
    (hres : ∀ c ∈ tempCols, lookupVal r c = Option.none) :
    prepF r = r ++
      [("description", Value.str d),
       ("normalized_desc", Value.str (normalize d)),
       ("desc_prefix", Value.str (String.mk ((normalize d).data.take 20))),
       ("dedup_key",
        Value.str (u ++ "|||" ++ String.mk ((normalize d).data.take 20)))] := by
  rw [prepF_explicit r d u hd hu]
  have e1 : lookupVal r "description" = Option.none := hres _ (by decide)
  rw [setVal_eq_append r _ _ e1]
  have e2 : lookupVal (r ++ [("description", Value.str d)]) "normalized_desc" =
      Option.none := by
    rw [lookupVal_append, hres _ (by decide)]
    rfl
  rw [setVal_eq_append _ _ _ e2]
  have e3 : lookupVal ((r ++ [("description", Value.str d)]) ++
      [("normalized_desc", Value.str (normalize d))]) "desc_prefix" =
      Option.none := by
    rw [lookupVal_append, lookupVal_append, hres _ (by decide)]
    rfl
  rw [setVal_eq_append _ _ _ e3]
  have e4 : lookupVal (((r ++ [("description", Value.str d)]) ++
      [("normalized_desc", Value.str (normalize d))]) ++
      [("desc_prefix", Value.str (String.mk ((normalize d).data.take 20)))])
      "dedup_key" = Option.none := by
    rw [lookupVal_append, lookupVal_append, lookupVal_append, hres _ (by decide)]
    rfl
  rw [setVal_eq_append _ _ _ e4]
  simp [List.append_assoc]

/-- Preparation leaves every non-derived cell unchanged. -/
theorem prepF_lookup_orig (r : Record) (d : String) (u : String)
    (hd : get_description r = .ok d)
    (hu : lookupVal r "page_url" = some (.str u))
    (c : String) (hc : c ∉ tempCols) :
    lookupVal (prepF r) c = lookupVal r c := by
  rw [prepF_explicit r d u hd hu]
  rw [lookupVal_setVal_ne _ _ (fun he => hc (by rw [he]; decide)),
    lookupVal_setVal_ne _ _ (fun he => hc (by rw [he]; decide)),
    lookupVal_setVal_ne _ _ (fun he => hc (by rw [he]; decide)),
    lookupVal_setVal_ne _ _ (fun he => hc (by rw [he]; decide))]

/-- Dropping the derived columns of a prepared reserved-free row restores the
original row. -/
theorem dropTemp_prepF (r : Record) (d : String) (u : String)
    (hd : get_description r = .ok d)
    (hu : lookupVal r "page_url" = some (.str u))
    (hres : ∀ c ∈ tempCols, lookupVal r c = Option.none) :
    dropTemp (prepF r) = r := by
  rw [prepF_shape r d u hd hu hres]
  unfold dropTemp
  rw [List.filter_append]
  have h2 : List.filter (fun p => !(tempCols.contains p.1))
      [("description", Value.str d),
       ("normalized_desc", Value.str (normalize d)),
       ("desc_prefix", Value.str (String.mk ((normalize d).data.take 20))),
       ("dedup_key",
        Value.str (u ++ "|||" ++ String.mk ((normalize d).data.take 20)))] = [] := rfl
  have h1 : List.filter (fun p => !(tempCols.contains p.1)) r = r :=
    List.filter_eq_self.mpr (fun p hp => by
      have hsome : (lookupVal r p.1).isSome :=
        lookupVal_isSome_of_mem (show (p.1, p.2) ∈ r from hp)
      have hnot : p.1 ∉ tempCols := by
        intro hmem
        rw [hres _ hmem] at hsome
        simp at hsome
      rw [contains_eq_false hnot]
      rfl)
  rw [h1, h2, List.append_nil]

/-- The keys of a prepared reserved-free uniform row. -/
theorem prepF_keys (r : Record) (d : String) (u : String)
    (hd : get_description r = .ok d)
    (hu : lookupVal r "page_url" = some (.str u))
    (hres : ∀ c ∈ tempCols, lookupVal r c = Option.none) :
    (prepF r).map Prod.fst = r.map Prod.fst ++ tempCols := by
  rw [prepF_shape r d u hd hu hres, List.map_append]
  rfl

theorem insortKey_perm (k : String) (l : List String) :
    (insortKey k l).Perm (k :: l) := by
  induction l with
  | nil => exact List.Perm.refl _
  | cons x xs ih =>
    unfold insortKey
    by_cases h : keyLe k x
    · rw [if_pos h]
    · rw [if_neg h]
      exact (List.Perm.cons x ih).trans (List.Perm.swap k x xs)

theorem sortKeys_perm (l : List String) : (sortKeys l).Perm l := by
  induction l with
  | nil => exact List.Perm.refl _
  | cons x xs ih =>
    show (insortKey x (sortKeys xs)).Perm (x :: xs)
    exact (insortKey_perm x (sortKeys xs)).trans (List.Perm.cons x ih)

theorem filter_key_singleton :
    ∀ (rows4 : List Record), (rows4.map keyOf).Nodup →
    ∀ r4 ∈ rows4, rows4.filter (fun r => keyOf r = keyOf r4) = [r4] := by
  intro rows4
  induction rows4 with
  | nil => intro _ r4 h; simp at h
  | cons x xs ih =>
    intro hnd r4 hr4
    rw [List.map_cons, List.nodup_cons] at hnd
    obtain ⟨hx, hxs⟩ := hnd
    rcases List.mem_cons.mp hr4 with he | hm
    · subst he
      rw [List.filter_cons_of_pos (by simp)]
      have hnil : xs.filter (fun r => keyOf r = keyOf r4) = [] := by
        rw [List.filter_eq_nil_iff]
        intro y hy
        simp only [decide_eq_true_eq]
        intro he
        exact hx (he ▸ List.mem_map_of_mem keyOf hy)
      rw [hnil]
    · have hne : keyOf x ≠ keyOf r4 := fun he =>
        hx (he ▸ List.mem_map_of_mem keyOf hm)
      rw [List.filter_cons_of_neg (by simp [hne])]
      exact ih hxs r4 hm

theorem mapE_map_eq_ok (f : Record → Except Err Record)
    (g h : Record → Record) (l : List Record)
    (hall : ∀ a ∈ l, f (g a) = .ok (h a)) :
    mapE f (l.map g) = .ok (l.map h) := by
  induction l with
  | nil => rfl
  | cons x xs ih =>
    have hx := hall x (by simp)
    have hxs := ih (fun a ha => hall a (by simp [ha]))
    simp [mapE, hx, hxs]

/-- One row of the key stage, after the earlier stages, succeeds and
produces the fully prepared row. -/
theorem prepKeyE_of_good (r : Record)
    (hd : okBool (get_description r) = true)
    (hu : isStrCell (lookupVal r "page_url") = true) :
    prepKeyE (prepPref (prepNorm (prepDescF r))) = .ok (prepF r) := by
  obtain ⟨d, hd'⟩ := okBool_get_desc hd
  obtain ⟨u, hu'⟩ := isStrCell_url "page_url" hu
  have h1 : prepDescF r = setVal r "description" (.str d) := by
    unfold prepDescF
    rw [hd']
  rw [h1, prepNorm_desc, prepPref_norm, prepKeyE_stage3 r d u hu',
    ← prepF_explicit r d u hd' hu']

/-- Under the input guarantees, the whole pipeline succeeds and computes the
grouped-merged-stripped output of the per-row preparation. -/
theorem runDedup_ok_form (cols0 : List String) (rows : List Record)
    (hd : ∀ r ∈ rows, okBool (get_description r) = true)
    (hu : ∀ r ∈ rows, isStrCell (lookupVal r "page_url") = true) :
    runDedup cols0 rows =
      .ok (((groupsOf (rows.map prepF)).map
        (merge_group (addCols cols0))).map dropTemp) := by
  have h1 : withDesc rows = .ok (rows.map prepDescF) := by
    apply mapE_eq_ok_of_all
    intro r hr
    obtain ⟨d, hd'⟩ := okBool_get_desc (hd r hr)
    simp [prepDesc, prepDescF, hd', Except.map]
  have h2 : withKey (withPref (withNorm (rows.map prepDescF))) =
      .ok (rows.map prepF) := by
    unfold withNorm withPref withKey
    rw [List.map_map, List.map_map]
    exact mapE_map_eq_ok prepKeyE _ prepF rows
      (fun r hr => prepKeyE_of_good r (hd r hr) (hu r hr))
  simp [runDedup, h1, h2]

theorem keyOf_prepF (r : Record) : keyOf (prepF r) = kStrOf r := rfl

/-! ## C4 — idempotence of the Group Merger -/

/-- C4 counterexample: on `exIdemRows` the first run succeeds and outputs two
records, but running the engine again on that output merges them into one —
re-merging does not yield the same set of records, because merging changed
the merged record's derived description and its re-derived key collides with
the singleton's key. -/
theorem c4_remerge_collapses :
    isErr (runDedup exIdemCols exIdemRows) = false ∧
    okLength (runDedup exIdemCols exIdemRows) = 2 ∧
    isErr (runTwice exIdemCols exIdemRows) = false ∧
    okLength (runTwice exIdemCols exIdemRows) = 1 := by
  decide

/-- C4 (amended): re-running the engine yields the same set of records
(indeed a permutation) only under the proviso the spec asserts but the code
does not guarantee — that the derived keys of the records fed in are
pairwise distinct.  For any record set with no reserved (derived) field
names, extractable descriptions, string URLs, and pairwise-distinct derived
keys — which is the situation the spec assumes for the output of a run —
the engine returns exactly the input records (as a set); the counterexample
shows that the output of a run can fail the distinct-keys proviso, so
idempotence does not hold unconditionally. -/
theorem c4_rerun_of_distinct_keys (cols0 : List String) (rows : List Record)
    (hres : ∀ r ∈ rows, ∀ c ∈ tempCols, lookupVal r c = Option.none)
    (hd : ∀ r ∈ rows, okBool (get_description r) = true)
    (hu : ∀ r ∈ rows, isStrCell (lookupVal r "page_url") = true)
    (hk : (rows.map kStrOf).Nodup) :
    permOk rows (runDedup cols0 rows) := by
  rw [runDedup_ok_form cols0 rows hd hu]
  show (((groupsOf (rows.map prepF)).map
    (merge_group (addCols cols0))).map dropTemp).Perm rows
  have hkeys : (rows.map prepF).map keyOf = rows.map kStrOf := by
    rw [List.map_map]
    rfl
  have hnodup : ((rows.map prepF).map keyOf).Nodup := by
    rw [hkeys]
    exact hk
  have hded : ((rows.map prepF).map keyOf).dedup = (rows.map prepF).map keyOf :=
    List.dedup_eq_self.mpr hnodup
  unfold groupsOf
  rw [hded, List.map_map, List.map_map]
  have hperm := (sortKeys_perm ((rows.map prepF).map keyOf)).map
    (dropTemp ∘ merge_group (addCols cols0) ∘
      (fun k => (rows.map prepF).filter (fun r => keyOf r = k)))
  refine hperm.trans ?_
  rw [List.map_map, List.map_map]
  have hpt : ∀ r ∈ rows,
      (((dropTemp ∘ merge_group (addCols cols0) ∘
        fun k => (rows.map prepF).filter (fun x => keyOf x = k)) ∘
        keyOf) ∘ prepF) r = id r := by
    intro r hr
    obtain ⟨d, hd'⟩ := okBool_get_desc (hd r hr)
    obtain ⟨u, hu'⟩ := isStrCell_url "page_url" (hu r hr)
    have hfil : (rows.map prepF).filter (fun x => keyOf x = keyOf (prepF r)) =
        [prepF r] :=
      filter_key_singleton (rows.map prepF) hnodup (prepF r)
        (List.mem_map_of_mem prepF hr)
    show dropTemp (merge_group (addCols cols0)
      ((rows.map prepF).filter (fun x => keyOf x = keyOf (prepF r)))) = r
    rw [hfil, merge_group_singleton, dropTemp_prepF r d u hd' hu' (hres r hr)]
  rw [List.map_congr_left hpt, List.map_id]

/-- C4 witness: two records with distinct URLs; the run returns them
unchanged (as a set). -/
theorem c4_rerun_of_distinct_keys_witness :
    ((∀ r ∈ [[("page_url", Value.str "u1"), ("brand", Value.str "a")],
        [("page_url", Value.str "u2"), ("brand", Value.str "")]],
      ∀ c ∈ tempCols, lookupVal r c = Option.none) ∧
    (∀ r ∈ [[("page_url", Value.str "u1"), ("brand", Value.str "a")],
        [("page_url", Value.str "u2"), ("brand", Value.str "")]],
      okBool (get_description r) = true) ∧
    (∀ r ∈ [[("page_url", Value.str "u1"), ("brand", Value.str "a")],
        [("page_url", Value.str "u2"), ("brand", Value.str "")]],
      isStrCell (lookupVal r "page_url") = true) ∧
    (([[("page_url", Value.str "u1"), ("brand", Value.str "a")],
        [("page_url", Value.str "u2"), ("brand", Value.str "")]].map kStrOf).Nodup)) ∧
    permOk [[("page_url", Value.str "u1"), ("brand", Value.str "a")],
        [("page_url", Value.str "u2"), ("brand", Value.str "")]]
      (runDedup ["page_url", "brand"]
        [[("page_url", Value.str "u1"), ("brand", Value.str "a")],
         [("page_url", Value.str "u2"), ("brand", Value.str "")]]) :=
  ⟨⟨by decide, by decide, by decide, by decide⟩,
    c4_rerun_of_distinct_keys ["page_url", "brand"] _
      (by decide) (by decide) (by decide) (by decide)⟩

/-! ### Key-set preservation through the fill loop -/

theorem fillStep_keys (r : Record) (m : Record) (d : String)
    (h : d ∉ tempCols → d ∈ m.map Prod.fst) :
    (fillStep r m d).map Prod.fst = m.map Prod.fst := by
  unfold fillStep
  by_cases h1 : d ∈ tempCols
  · simp [h1]
  · by_cases h2 : is_empty (lookupD m d)
    · by_cases h3 : is_empty (lookupD r d)
      · simp [h1, h2, h3]
      · have h3' : is_empty (lookupD r d) = false := by
          revert h3
          cases is_empty (lookupD r d) <;> simp
        simp [h1, h2, h3', keys_setVal_of_mem m d _ (h h1)]
    · have h2' : is_empty (lookupD m d) = false := by
        revert h2
        cases is_empty (lookupD m d) <;> simp
      simp [h1, h2']

theorem fillFold_keys (r : Record) :
    ∀ (cs : List String) (m : Record),
    (∀ c ∈ cs, c ∉ tempCols → c ∈ m.map Prod.fst) →
    (cs.foldl (fillStep r) m).map Prod.fst = m.map Prod.fst := by
  intro cs
  induction cs with
  | nil => intro m _; rfl
  | cons d cs ih =>
    intro m h
    rw [List.foldl_cons]
    have hstep : (fillStep r m d).map Prod.fst = m.map Prod.fst :=
      fillStep_keys r m d (h d (by simp))
    rw [ih (fillStep r m d) (fun c hc hct => by
      rw [hstep]
      exact h c (by simp [hc]) hct), hstep]

theorem fillList_keys (cols : List String) :
    ∀ (rs : List Record) (m : Record),
    (∀ c ∈ cols, c ∉ tempCols → c ∈ m.map Prod.fst) →
    (rs.foldl (fillFromRecord cols) m).map Prod.fst = m.map Prod.fst := by
  intro rs
  induction rs with
  | nil => intro m _; rfl
  | cons r rs ih =>
    intro m h
    rw [List.foldl_cons]
    have hstep : (fillFromRecord cols m r).map Prod.fst = m.map Prod.fst :=
      fillFold_keys r cols m h
    rw [ih _ (fun c hc hct => by rw [hstep]; exact h c hc hct), hstep]

/-! ## C7 — output schema -/

/-- C7 counterexample: an input that itself has a `description` field.  The
engine overwrites that column with the derived description (line 35) and then
drops it (line 123), so the input field `description` is absent from the
output — the output does not carry the full original schema. -/
theorem c7_description_column_lost :
    isErr (runDedup ["page_url", "description"]
      [[("page_url", Value.str "u"), ("description", Value.str "hello world")]]) =
        false ∧
    okRecords (runDedup ["page_url", "description"]
      [[("page_url", Value.str "u"), ("description", Value.str "hello world")]]) =
      [[("page_url", Value.str "u")]] ∧
    hasField [("page_url", Value.str "u"), ("description", Value.str "hello world")]
      "description" = true ∧
    hasField [("page_url", Value.str "u")] "description" = false := by
  decide

/-- C7 (amended): provided no input field uses one of the four reserved
derived column names (`description`, `normalized_desc`, `desc_prefix`,
`dedup_key`) — and under the input guarantees (uniform schema, string URLs,
extractable descriptions) — every output record carries exactly the original
input column schema, and every output cell holds some source record's value
for that field. -/
theorem c7_schema_preserved (cols0 : List String) (rows : List Record)
    (hres : ∀ r ∈ rows, ∀ c ∈ tempCols, lookupVal r c = Option.none)
    (hd : ∀ r ∈ rows, okBool (get_description r) = true)
    (hu : ∀ r ∈ rows, isStrCell (lookupVal r "page_url") = true)
    (huni : ∀ r ∈ rows, r.map Prod.fst = cols0) :
    schemaProvOk cols0 rows (runDedup cols0 rows) := by
  by_cases hempty : rows = []
  · subst hempty
    have hrun : runDedup cols0 [] = .ok [] := rfl
    rw [hrun]
    exact ⟨by simp, by simp⟩
  · obtain ⟨r0, hr0⟩ : ∃ r0, r0 ∈ rows := by
      cases rows with
      | nil => exact absurd rfl hempty
      | cons x xs => exact ⟨x, by simp⟩
    have hdisj : ∀ c ∈ tempCols, c ∉ cols0 := by
      intro c hc hmem
      have hsome := lookupVal_isSome_of_mem_keys
        (show c ∈ r0.map Prod.fst by rw [huni r0 hr0]; exact hmem)
      rw [hres r0 hr0 c hc] at hsome
      simp at hsome
    rw [runDedup_ok_form cols0 rows hd hu]
    show (∀ m ∈ ((groupsOf (rows.map prepF)).map
        (merge_group (addCols cols0))).map dropTemp, m.map Prod.fst = cols0) ∧
      (∀ m ∈ ((groupsOf (rows.map prepF)).map
        (merge_group (addCols cols0))).map dropTemp,
        ∀ c ∈ cols0, ∃ r ∈ rows, lookupD m c = lookupD r c)
    have hmem_out : ∀ m ∈ ((groupsOf (rows.map prepF)).map
        (merge_group (addCols cols0))).map dropTemp,
        ∃ g, g ≠ [] ∧ (∀ r4 ∈ g, r4 ∈ rows.map prepF) ∧
          m = dropTemp (merge_group (addCols cols0) g) := by
      intro m hm
      rcases List.mem_map.mp hm with ⟨mg, hmg, hdropm⟩
      rcases List.mem_map.mp hmg with ⟨g, hgmem, hmerge⟩
      unfold groupsOf at hgmem
      rcases List.mem_map.mp hgmem with ⟨k, hk, hfil⟩
      have hk2 : k ∈ ((rows.map prepF).map keyOf).dedup :=
        (sortKeys_perm _).mem_iff.mp hk
      have hk3 : k ∈ (rows.map prepF).map keyOf := List.mem_dedup.mp hk2
      rcases List.mem_map.mp hk3 with ⟨r40, hr40, hkey⟩
      refine ⟨g, ?_, ?_, ?_⟩
      · intro hnil
        have hin : r40 ∈ (rows.map prepF).filter (fun r => keyOf r = k) :=
          List.mem_filter.mpr ⟨hr40, by simp [hkey]⟩
        rw [hfil, hnil] at hin
        simp at hin
      · intro r4 hr4
        rw [← hfil] at hr4
        exact (List.mem_filter.mp hr4).1
      · rw [← hdropm, ← hmerge]
    have hmemprops : ∀ r4 ∈ rows.map prepF,
        r4.map Prod.fst = cols0 ++ tempCols ∧
        ∀ c, c ∉ tempCols → ∃ r ∈ rows, lookupVal r4 c = lookupVal r c := by
      intro r4 hr4
      rcases List.mem_map.mp hr4 with ⟨r, hr, hpf⟩
      obtain ⟨d, hd'⟩ := okBool_get_desc (hd r hr)
      obtain ⟨u, hu'⟩ := isStrCell_url "page_url" (hu r hr)
      constructor
      · rw [← hpf, prepF_keys r d u hd' hu' (hres r hr), huni r hr]
      · intro c hc
        exact ⟨r, hr, by rw [← hpf, prepF_lookup_orig r d u hd' hu' c hc]⟩
    have hmerged : ∀ (g : List Record), g ≠ [] →
        (∀ r4 ∈ g, r4 ∈ rows.map prepF) →
        (dropTemp (merge_group (addCols cols0) g)).map Prod.fst = cols0 ∧
        ∀ c ∈ cols0, ∃ r ∈ rows,
          lookupD (dropTemp (merge_group (addCols cols0) g)) c = lookupD r c := by
      intro g hne hsub
      by_cases hlen : g.length = 1
      · obtain ⟨r4, hg⟩ := List.length_eq_one.mp hlen
        subst hg
        rw [merge_group_singleton]
        obtain ⟨hkeys4, hlook⟩ := hmemprops r4 (hsub r4 (by simp))
        constructor
        · rw [dropTemp_keys, hkeys4, filter_not_temp cols0 hdisj]
        · intro c hc
          have hct : c ∉ tempCols := fun hmem => hdisj c hmem hc
          obtain ⟨r, hr, hlk⟩ := hlook c hct
          refine ⟨r, hr, ?_⟩
          rw [lookupD, lookupVal_dropTemp _ c hct, hlk]
          rfl
      · have hmg : merge_group (addCols cols0) g = mergeCore (addCols cols0) g := by
          unfold merge_group
          rw [if_neg hlen]
        have hbi : bestIdx (addCols cols0) g < g.length := (bestIdx_spec _ g hne).1
        have hbase_mem : g.getD (bestIdx (addCols cols0) g) [] ∈ g := by
          rw [List.getD_eq_getElem _ _ hbi]
          exact List.getElem_mem hbi
        obtain ⟨hkeysbase, _⟩ := hmemprops _ (hsub _ hbase_mem)
        have hprecond : ∀ c ∈ addCols cols0, c ∉ tempCols →
            c ∈ (g.getD (bestIdx (addCols cols0) g) []).map Prod.fst := by
          intro c hcin _
          rw [hkeysbase, ← addCols_eq cols0 hdisj]
          exact hcin
        have hkeysmerged : (mergeCore (addCols cols0) g).map Prod.fst =
            cols0 ++ tempCols := by
          rw [mergeCore_eq_fillList,
            fillList_keys (addCols cols0) _ _ hprecond, hkeysbase]
        constructor
        · rw [hmg, dropTemp_keys, hkeysmerged, filter_not_temp cols0 hdisj]
        · intro c hc
          have hct : c ∉ tempCols := fun hmem => hdisj c hmem hc
          have hcin : c ∈ addCols cols0 := by
            rw [addCols_eq cols0 hdisj]
            exact List.mem_append.mpr (Or.inl hc)
          have hchar := fillList_lookup (addCols cols0) hcin hct
            (othersOf g (bestIdx (addCols cols0) g))
            (g.getD (bestIdx (addCols cols0) g) [])
          have hdt : lookupD (dropTemp (merge_group (addCols cols0) g)) c =
              lookupD (merge_group (addCols cols0) g) c := by
            rw [lookupD, lookupVal_dropTemp _ c hct]
            rfl
          rw [hdt, hmg, mergeCore_eq_fillList, hchar]
          by_cases hbe : is_empty
              (lookupD (g.getD (bestIdx (addCols cols0) g) []) c) = true
          · rw [if_pos hbe]
            cases hfind : (othersOf g (bestIdx (addCols cols0) g)).find?
                (fun r => !(is_empty (lookupD r c))) with
            | none =>
              obtain ⟨_, hlook⟩ := hmemprops _ (hsub _ hbase_mem)
              obtain ⟨r, hr, hlk⟩ := hlook c hct
              exact ⟨r, hr, by rw [lookupD, hlk]; rfl⟩
            | some r' =>
              have hr'g : r' ∈ g := mem_othersOf (List.mem_of_find?_eq_some hfind)
              obtain ⟨_, hlook⟩ := hmemprops _ (hsub _ hr'g)
              obtain ⟨r, hr, hlk⟩ := hlook c hct
              refine ⟨r, hr, ?_⟩
              show lookupD r' c = lookupD r c
              rw [lookupD, hlk]
              rfl
          · rw [if_neg hbe]
            obtain ⟨_, hlook⟩ := hmemprops _ (hsub _ hbase_mem)
            obtain ⟨r, hr, hlk⟩ := hlook c hct
            exact ⟨r, hr, by rw [lookupD, hlk]; rfl⟩
    constructor
    · intro m hm
      obtain ⟨g, hne, hsub, hmform⟩ := hmem_out m hm
      rw [hmform]
      exact (hmerged g hne hsub).1
    · intro m hm
      obtain ⟨g, hne, hsub, hmform⟩ := hmem_out m hm
      rw [hmform]
      exact (hmerged g hne hsub).2

/-- C7 witness: two records sharing a key; the merged output record carries
the input schema and source values. -/
theorem c7_schema_preserved_witness :
    ((∀ r ∈ [[("page_url", Value.str "u"), ("brand", Value.str "Acme")],
        [("page_url", Value.str "u"), ("brand", Value.str "")]],
      ∀ c ∈ tempCols, lookupVal r c = Option.none) ∧
    (∀ r ∈ [[("page_url", Value.str "u"), ("brand", Value.str "Acme")],
        [("page_url", Value.str "u"), ("brand", Value.str "")]],
      okBool (get_description r) = true) ∧
    (∀ r ∈ [[("page_url", Value.str "u"), ("brand", Value.str "Acme")],
        [("page_url", Value.str "u"), ("brand", Value.str "")]],
      isStrCell (lookupVal r "page_url") = true) ∧
    (∀ r ∈ [[("page_url", Value.str "u"), ("brand", Value.str "Acme")],
        [("page_url", Value.str "u"), ("brand", Value.str "")]],
      r.map Prod.fst = ["page_url", "brand"])) ∧
    schemaProvOk ["page_url", "brand"]
      [[("page_url", Value.str "u"), ("brand", Value.str "Acme")],
       [("page_url", Value.str "u"), ("brand", Value.str "")]]
      (runDedup ["page_url", "brand"]
        [[("page_url", Value.str "u"), ("brand", Value.str "Acme")],
         [("page_url", Value.str "u"), ("brand", Value.str "")]]) :=
  ⟨⟨by decide, by decide, by decide, by decide⟩,
    c7_schema_preserved ["page_url", "brand"] _
      (by decide) (by decide) (by decide) (by decide)⟩

end Dedup
